import Mathlib

/-!
Verification development for the market-lens signal-detection and simulation
core (src/scanners/base.py, src/scanners/entry_point.py,
src/simulation/engine.py, src/simulation/portfolio.py).

Modelling conventions:
* Prices and volumes are rationals (ℚ): the Python code computes with IEEE
  floats over pandas series; the rational model represents the same exact
  arithmetic.  A pandas NaN (undefined rolling window, missing weekly bar)
  is modelled as `none : Option ℚ`; every comparison against a possibly-NaN
  value uses the NaN-aware helpers below, which return `false` whenever an
  operand is `none`, exactly as IEEE comparisons with NaN are `False` in
  Python.
* Dates are naturals counting days from a fixed Monday epoch, so `d % 7 = 6`
  is a Sunday.  The pandas weekly resample `resample("W")` bins bars into
  weeks ending Sunday and labels each bin with that Sunday.
* A price series is a list of bars sorted by strictly increasing date
  (the documented contract: "DatetimeIndex, sorted ascending").
-/

/-- One daily OHLCV bar (one row of the pandas DataFrame). -/
structure Bar where
  date : ℕ
  open_ : ℚ
  high : ℚ
  low : ℚ
  close : ℚ
  volume : ℚ
  deriving Repr, DecidableEq

/-- The documented DataFrame contract: strictly ascending unique dates. -/
def sortedBars (s : List Bar) : Prop :=
  List.Pairwise (fun a b => a.date < b.date) s

instance (s : List Bar) : Decidable (sortedBars s) := by
  unfold sortedBars; infer_instance

/-- `ohlcv.loc[:d]` on a date-sorted frame: all bars dated `≤ d`. -/
def sliceLE (s : List Bar) (d : ℕ) : List Bar :=
  s.filter (fun b => b.date ≤ d)

/-- Dates of a series (`ohlcv.index`). -/
def datesOf (s : List Bar) : List ℕ := s.map (·.date)

/-- Bar at positional index `i` (`ohlcv.iloc[i]`); dummy bar out of range
(all in-range in every use). -/
def barAt (s : List Bar) (i : ℕ) : Bar :=
  s.getD i ⟨0, 0, 0, 0, 0, 0⟩

/-- Last close of a series (`series["Close"].iloc[-1]`), 0 if empty. -/
def lastClose (s : List Bar) : ℚ :=
  ((s.getLast?).map (·.close)).getD 0

-- ---------------------------------------------------------------------------
-- NaN-aware comparisons: a pandas NaN compares `False` with anything.
-- ---------------------------------------------------------------------------

def oLT : Option ℚ → Option ℚ → Bool
  | some a, some b => decide (a < b)
  | _, _ => false

def oGT (a b : Option ℚ) : Bool := oLT b a

def oLE : Option ℚ → Option ℚ → Bool
  | some a, some b => decide (a ≤ b)
  | _, _ => false

/-- NaN-propagating binary arithmetic. -/
def oMap2 (f : ℚ → ℚ → ℚ) : Option ℚ → Option ℚ → Option ℚ
  | some a, some b => some (f a b)
  | _, _ => none

-- ---------------------------------------------------------------------------
-- Indicator engine (EntryPointScanner._compute_indicators)
-- ---------------------------------------------------------------------------

/-- `xs.rolling(w).mean()` evaluated at positional index `i`: the mean of
`xs[i-w+1..i]`, NaN (`none`) when fewer than `w` values are available or the
index is out of range. -/
def rollingMeanAt (w : ℕ) (xs : List ℚ) (i : ℕ) : Option ℚ :=
  if i < xs.length ∧ 0 < w ∧ w ≤ i + 1 then
    some ((((xs.take (i + 1)).drop (i + 1 - w)).sum) / w)
  else none

/-- `ohlcv["High"].expanding().max()` at index `i`: max of the first `i+1`
highs (defined as soon as the series is nonempty). -/
def expandingMaxAt (xs : List ℚ) (i : ℕ) : Option ℚ :=
  if i < xs.length then (xs.take (i + 1)).max? else none

/-- The Sunday on or after day `d` — the label pandas `resample("W")` gives
to the weekly bin containing `d` (epoch day 0 is a Monday). -/
def weekLabel (d : ℕ) : ℕ := d + (6 - d % 7)

/-- Helper for `weeklyCloses`: walks the (date-sorted) bars carrying the
current bin label and the bin's last close so far. -/
def wkGroup (lab : ℕ) (lastC : ℚ) : List Bar → List (ℕ × ℚ)
  | [] => [(lab, lastC)]
  | b :: bs =>
    if weekLabel b.date = lab then wkGroup lab b.close bs
    else (lab, lastC) :: wkGroup (weekLabel b.date) b.close bs

/-- The `Close` column of `resample_ohlcv(ohlcv, "W")` (scanners/base.py):
one `(label, last close)` pair per nonempty weekly bin, in date order.  Only
the weekly `Close` is ever consumed by the scanner (`w_close`, `w_mf`,
`w_mm`), so the other aggregated columns are not modelled.  Empty bins are
dropped (`.dropna()`). -/
def weeklyCloses : List Bar → List (ℕ × ℚ)
  | [] => []
  | b :: bs => wkGroup (weekLabel b.date) b.close bs

/-- The weekly bars visible from daily date `d` under
`reindex(ohlcv.index, method="ffill")`: bins whose (Sunday) label is `≤ d`.
On a sorted series the weekly labels ascend, so this is a `takeWhile`. -/
def wBarsUpTo (s : List Bar) (d : ℕ) : List (ℕ × ℚ) :=
  (weeklyCloses s).takeWhile (fun p => p.1 ≤ d)

/-- `ind["w_close"]` at daily date `d`: the forward-filled weekly close —
the close of the last weekly bin labelled `≤ d`; NaN if none exists. -/
def wCloseAt (s : List Bar) (d : ℕ) : Option ℚ :=
  ((wBarsUpTo s d).getLast?).map (·.2)

/-- `weekly["Close"].rolling(w).mean().reindex(..., method="ffill")` at daily
date `d`: the rolling mean over weekly closes, evaluated at the last weekly
bin labelled `≤ d`.  (The rolling window at that bin only uses bins at or
before it, i.e. exactly the bins of `wBarsUpTo`.) -/
def wMAAt (w : ℕ) (s : List Bar) (d : ℕ) : Option ℚ :=
  let p := wBarsUpTo s d
  rollingMeanAt w (p.map (·.2)) (p.length - 1)

/-- Scanner configuration (EntryPointScanner.__init__ defaults).
`wickBodyRat` is the source's `wick_body_ratio`. -/
structure Cfg where
  dXfast : ℕ := 5
  dFast : ℕ := 10
  dMid : ℕ := 20
  dSlow : ℕ := 50
  wFast : ℕ := 10
  wMid : ℕ := 20
  approachPct : ℚ := 3
  touchPct : ℚ := 1/2
  lookback : ℕ := 3
  wickBodyRat : ℚ := 2
  upperWickMax : ℚ := 3/10
  deriving Repr, DecidableEq

def defaultCfg : Cfg := {}

/-- The precomputed indicator bundle (`_compute_indicators`'s dict): each
field is the value of the corresponding derived series at a positional
index.  The weekly fields are indexed by position and evaluated at that
bar's date, matching the forward-filled daily alignment. -/
structure Ind where
  dMxf : ℕ → Option ℚ
  dMf : ℕ → Option ℚ
  dMm : ℕ → Option ℚ
  dMs : ℕ → Option ℚ
  ath : ℕ → Option ℚ
  volAvg : ℕ → Option ℚ
  wClose : ℕ → Option ℚ
  wMf : ℕ → Option ℚ
  wMm : ℕ → Option ℚ

/-- The indicator bundle computed from a series (the `some` branch of
`_compute_indicators`). -/
def indOf (cfg : Cfg) (s : List Bar) : Ind where
  dMxf := rollingMeanAt cfg.dXfast (s.map (·.close))
  dMf := rollingMeanAt cfg.dFast (s.map (·.close))
  dMm := rollingMeanAt cfg.dMid (s.map (·.close))
  dMs := rollingMeanAt cfg.dSlow (s.map (·.close))
  ath := expandingMaxAt (s.map (·.high))
  volAvg := rollingMeanAt 20 (s.map (·.volume))
  wClose := fun i => wCloseAt s (barAt s i).date
  wMf := fun i => wMAAt cfg.wFast s (barAt s i).date
  wMm := fun i => wMAAt cfg.wMid s (barAt s i).date

/-- `EntryPointScanner._compute_indicators`: `none` when the series is
shorter than `d_slow + 20` daily bars or has fewer than `w_mid + 2` weekly
bars, otherwise the indicator bundle. -/
def computeIndicators (cfg : Cfg) (s : List Bar) : Option Ind :=
  if s.length < cfg.dSlow + 20 then none
  else if (weeklyCloses s).length < cfg.wMid + 2 then none
  else some (indOf cfg s)

-- ---------------------------------------------------------------------------
-- Result types (scanners/base.py) and rounding
-- ---------------------------------------------------------------------------

/-- Python `round` (banker's rounding) to an integer, exact on rationals.
(`Int.fdiv num den` is the floor of the rational, written so the kernel can
evaluate it.) -/
def roundHalfEven (q : ℚ) : ℤ :=
  let f : ℤ := Int.fdiv q.num q.den
  let r := q - f
  if r < 1/2 then f else if 1/2 < r then f + 1 else if f % 2 = 0 then f else f + 1

/-- Python `round(q, k)`. -/
def roundTo (k : ℕ) (q : ℚ) : ℚ := (roundHalfEven (q * 10 ^ k) : ℚ) / 10 ^ k

/-- The free-form metadata/details dict: a record of the keys the core ever
reads or writes (absent keys are `none`/`""`). -/
structure Meta where
  score? : Option ℚ := none
  entry : String := ""
  dist : Option ℚ := none
  athPct : Option ℚ := none
  wk : String := ""
  capB : Option ℤ := none
  deriving Repr, DecidableEq

/-- ScanResult with `__post_init__`'s clamp applied on construction. -/
structure ScanResult where
  ticker : String
  score : ℚ
  signal : String
  details : Meta
  deriving Repr, DecidableEq

/-- `ScanResult(...)`: `__post_init__` clamps the score into [0, 100]. -/
def mkScanResult (ticker : String) (score : ℚ) (signal : String)
    (details : Meta) : ScanResult :=
  ⟨ticker, max 0 (min 100 score), signal, details⟩

structure EntrySignal where
  date : ℕ
  price : ℚ
  reason : String
  meta : Meta := {}
  deriving Repr, DecidableEq

structure ExitSignal where
  date : ℕ
  price : ℚ
  reason : String
  deriving Repr, DecidableEq

/-- Fundamentals record; only `marketCap` is ever read by the core. -/
structure Fund where
  marketCap : Option ℚ := none
  deriving Repr, DecidableEq

-- ---------------------------------------------------------------------------
-- EntryPointScanner: hammer detection and per-index entry check
-- ---------------------------------------------------------------------------

/-- `EntryPointScanner._detect_hammer`. -/
def detectHammer (cfg : Cfg) (o h l c : ℚ) : Bool :=
  let totalRange := h - l
  if totalRange ≤ 0 then false
  else
    let body := |c - o|
    let bodyTop := max c o
    let bodyBottom := min c o
    let lowerWick := bodyBottom - l
    let upperWick := h - bodyTop
    if body < totalRange * (5/100) then
      totalRange * (6/10) < lowerWick ∧ upperWick < totalRange * cfg.upperWickMax
    else
      body * cfg.wickBodyRat ≤ lowerWick ∧ upperWick < totalRange * cfg.upperWickMax

/-- The `best_details` dict of a candle classification. -/
structure CandleDet where
  maN : ℕ        -- the MA period; the dict's "ma" key is the string "MA{maN}"
  lowDist : ℚ    -- "low_dist_%": round(abs(low_dist_pct), 2)
  closeDist : ℚ  -- "close_dist_%": round(close_dist_pct, 2)
  candleAgo : ℕ  -- "candle_ago"
  deriving Repr, DecidableEq

/-- One (bar, moving-average) classification attempt in the signal-detection
loop of `_check_entry_at`: returns the candidate (score, signal, details) or
`none`.  `isMid` is the source's `ma_label == f"MA{self.d_mid}"` test (label
strings are equal iff the periods are). A NaN moving average classifies
nothing (every comparison with NaN is false). -/
def evalPair (cfg : Cfg) (recency : ℚ) (ago : ℕ) (o h l c : ℚ)
    (maO : Option ℚ) (maN : ℕ) (isMid : Bool) :
    Option (ℚ × String × CandleDet) :=
  match maO with
  | none => none
  | some ma =>
    let closeDist := (c - ma) / ma * 100
    let lowDist := (l - ma) / ma * 100
    if isMid ∧ c < ma then none
    else
      let lowNear : Bool := |lowDist| ≤ cfg.touchPct ∨ lowDist ≤ 0
      let det : CandleDet := ⟨maN, roundTo 2 |lowDist|, roundTo 2 closeDist, ago⟩
      if detectHammer cfg o h l c ∧ lowNear then
        some ((40 + max 0 (1 - |lowDist| / max cfg.touchPct (1/100)) * 20) * recency,
          "HAMMER", det)
      else if lowNear then
        some ((25 + max 0 (1 - |lowDist| / max cfg.touchPct (1/100)) * 15) * recency,
          "TOUCH", det)
      else if |closeDist| ≤ cfg.approachPct then
        some ((10 + max 0 (1 - |closeDist| / cfg.approachPct) * 15) * recency,
          "APPROACHING", det)
      else none

/-- `if s > best_score: best_score, best_signal, best_details = ...`. -/
def updateBest (acc : ℚ × Option (String × CandleDet))
    (r : Option (ℚ × String × CandleDet)) : ℚ × Option (String × CandleDet) :=
  match r with
  | none => acc
  | some (s, sig, det) => if acc.1 < s then (s, some (sig, det)) else acc

/-- One iteration `j` of the signal-detection loop: tries the fast MA then
the medium MA, in source order. -/
def scanCandle (cfg : Cfg) (s : List Bar) (ind : Ind) (idx : ℕ)
    (acc : ℚ × Option (String × CandleDet)) (j : ℕ) :
    ℚ × Option (String × CandleDet) :=
  let ago := idx - j
  let recency := max 0 (1 - (ago : ℚ) * (3/10))
  let b := barAt s j
  let acc1 := updateBest acc
    (evalPair cfg recency ago b.open_ b.high b.low b.close (ind.dMf j)
      cfg.dFast (decide (cfg.dFast = cfg.dMid)))
  updateBest acc1
    (evalPair cfg recency ago b.open_ b.high b.low b.close (ind.dMm j)
      cfg.dMid true)

/-- The `_sig_short` map and the entry label `f"{short}@{ml}({ag}d)"`. -/
def entryLabelOf (sig : String) (det : CandleDet) : String :=
  let short := if sig = "HAMMER" then "HMR"
    else if sig = "TOUCH" then "TCH"
    else if sig = "APPROACHING" then "APR" else sig
  short ++ "@M" ++ toString det.maN ++ "(" ++ toString det.candleAgo ++ "d)"

/-- The signal-detection loop of `_check_entry_at`
(`for j in range(max(min_idx, idx - self.lookback + 1), idx + 1)`),
folding `scanCandle` over the window with `best_score` starting at 0. -/
def detectLoop (cfg : Cfg) (s : List Bar) (ind : Ind) (idx : ℕ) :
    ℚ × Option (String × CandleDet) :=
  let lo := max (cfg.dSlow + 20) (idx + 1 - cfg.lookback)
  (List.range' lo (idx + 1 - lo)).foldl (scanCandle cfg s ind idx) (0, none)

/-- `ohlcv["High"].iloc[max(0, idx - 20):idx + 1].max()`. -/
def recentHighAt (s : List Bar) (idx : ℕ) : Option ℚ :=
  (((s.map (·.high)).take (idx + 1)).drop (idx - 20)).max?

/-- The dict returned by `_check_entry_at`. -/
structure EntryRes where
  score : ℚ          -- "score": round(min(100, best_score), 1)
  signal : String    -- "signal"
  entryLabel : String
  det : CandleDet    -- "best_details"
  pctFromAth : Option ℚ
  weeklyFullAlign : Bool
  deriving Repr, DecidableEq

/-- `EntryPointScanner._check_entry_at(idx, ohlcv, ind)`. -/
def checkEntryAt (cfg : Cfg) (s : List Bar) (idx : ℕ) (ind : Ind) :
    Option EntryRes :=
  let minIdx := cfg.dSlow + 20
  if idx < minIdx then none
  else
    let c := (barAt s idx).close
    -- Weekly filter
    match ind.wMm idx, ind.wClose idx with
    | some wMm, some wLast =>
      if ¬ (wMm < wLast) then none
      else
        let weeklyFullAlign : Bool :=
          oGT (some wLast) (ind.wMf idx) && oGT (ind.wMf idx) (some wMm)
        -- Daily filter
        match ind.dMxf idx, ind.dMf idx, ind.dMm idx with
        | some mxf, some mf, some mm =>
          if ¬ (mf < mxf ∧ mm < mf) then none
          else if c < mm then none
          else
            let ma50Aligned : Bool := oGT (some mm) (ind.dMs idx)
            -- Signal detection over the lookback window
            let best := detectLoop cfg s ind idx
            match best.2 with
            | none => none
            | some (sig, det) =>
              -- Resistance / ATH bonus
              let athO := ind.ath idx
              let pctFromAth := athO.map (fun a => (a - c) / a * 100)
              let athBonus : ℚ :=
                if oLE pctFromAth (some 3) then 20
                else if oLE pctFromAth (some 5) then 15
                else if oLE pctFromAth (some 10) then 8 else 0
              let recentHigh := recentHighAt s idx
              let rhBonus : ℚ :=
                if oLE (oMap2 (fun a r => (a - r) / a * 100) athO recentHigh) (some 2)
                then 5 else 0
              -- Bonus scores
              let maBonus : ℚ := if ma50Aligned then 15 else 0
              let dSpread := (mxf - mm) / mm * 100
              let dBonus : ℚ := min 15 (dSpread * 3)
              -- CPython: with a NaN weekly spread, min(5, max(0, nan)) = 0,
              -- and full alignment is already false, so NaN w_mf adds 0.
              let wBonus : ℚ :=
                match ind.wMf idx with
                | some wMf =>
                  let wSpread := (wMf - wMm) / wMm * 100
                  if weeklyFullAlign then min 15 (wSpread * 2 + 5)
                  else min 5 (max 0 wSpread)
                | none => 0
              let greenBonus : ℚ := if (barAt s idx).open_ < c then 5 else 0
              let total := best.1 + athBonus + rhBonus + maBonus + dBonus
                + wBonus + greenBonus
              let score := min 100 total
              let signal := if 65 ≤ score then "STRONG_BUY"
                else if 40 ≤ score then "BUY" else "WATCH"
              some ⟨roundTo 1 score, signal, entryLabelOf sig det, det,
                pctFromAth, weeklyFullAlign⟩
        | _, _, _ => none
    | _, _ => none

-- ---------------------------------------------------------------------------
-- EntryPointScanner.scan / prepare_simulation / check_entry_signal /
-- check_exit_signal; BaseScanner.check_entry_signal
-- ---------------------------------------------------------------------------

/-- `EntryPointScanner.scan`: point-in-time evaluation at the last bar. -/
def scanEP (cfg : Cfg) (ticker : String) (s : List Bar) (f : Fund) :
    Option ScanResult :=
  match computeIndicators cfg s with
  | none => none
  | some ind =>
    match checkEntryAt cfg s (s.length - 1) ind with
    | none => none
    | some r =>
      some (mkScanResult ticker r.score r.signal
        { entry := r.entryLabel
          dist := some (roundTo 1 r.det.closeDist)
          athPct := r.pctFromAth.map (roundTo 1)
          wk := if r.weeklyFullAlign then "Y" else ""
          capB := some (roundHalfEven ((f.marketCap.getD 0) / 10 ^ 9)) })

/-- `BaseScanner.check_entry_signal` (the default truncate-then-scan path),
generic in the concrete scanner's `scan`. -/
def baseCheckEntrySignal (scanF : List Bar → Option ScanResult)
    (s : List Bar) (d : ℕ) : Option EntrySignal :=
  let sl := sliceLE s d
  if sl.length < 50 then none
  else
    match scanF sl with
    | none => none
    | some r => some ⟨d, lastClose sl, r.signal, r.details⟩

/-- The per-date entry cache built by `EntryPointScanner.prepare_simulation`
over the full series, queried at `as_of_date = d` (the overridden
`check_entry_signal` after preparation: `self._sim_entries.get(as_of_date)`).
The dict holds, for each index `i ≥ d_slow + 20` whose `_check_entry_at`
fires, an EntrySignal dated and priced at bar `i` with metadata
`{"entry": label, "score": score}`; it is empty when `_compute_indicators`
returned None on the full series. -/
def simEntryAt (cfg : Cfg) (s : List Bar) (d : ℕ) : Option EntrySignal :=
  match computeIndicators cfg s with
  | none => none
  | some ind =>
    match s.findIdx? (fun b => b.date = d) with
    | none => none
    | some i =>
      if i < cfg.dSlow + 20 then none
      else
        (checkEntryAt cfg s i ind).map (fun r =>
          ⟨d, (barAt s i).close, r.signal,
            { entry := r.entryLabel, score? := some r.score }⟩)

/-- The six-rule exit chain shared by both branches of
`EntryPointScanner.check_exit_signal` (rules 1–6, first match returns). -/
def exitChain (d : ℕ) (currentClose ep : ℚ) (ma20O : Option ℚ) (r3 : Bool)
    (avgVolO curVolO : Option ℚ) (entryDate : ℕ) : Option ExitSignal :=
  if currentClose < ep * (9/10) then some ⟨d, currentClose, "STOP_LOSS"⟩
  else if ep * (23/20) < currentClose then some ⟨d, currentClose, "PROFIT_TARGET"⟩
  else if r3 then some ⟨d, currentClose, "MA20_BREAKDOWN"⟩
  else if oGT ma20O (some 0) &&
      oLT (ma20O.map (fun m => (currentClose - m) / m * 100)) (some (-5)) then
    some ⟨d, currentClose, "SHARP_DROP"⟩
  else if oLT (some currentClose) ma20O && oGT avgVolO (some 0) &&
      oGT curVolO (oMap2 (fun a b => a * b) avgVolO (some 2)) then
    some ⟨d, currentClose, "VOLUME_BREAKDOWN"⟩
  else if 30 ≤ (d : ℤ) - (entryDate : ℤ) then some ⟨d, currentClose, "TIME_EXIT"⟩
  else none

/-- `len(series.rolling(w).mean().dropna())`. -/
def dropNaCount (w : ℕ) (xs : List ℚ) : ℕ :=
  (List.range xs.length).countP (fun i => (rollingMeanAt w xs i).isSome)

/-- `EntryPointScanner.check_exit_signal`.  `useCache` selects the
precomputed-indicator branch (`_sim_ind` present for this ticker, i.e.
`prepare_simulation` succeeded on the same full series `s`). -/
def checkExitSignal (cfg : Cfg) (useCache : Bool) (s : List Bar)
    (entry : EntrySignal) (d : ℕ) : Option ExitSignal :=
  let sl := sliceLE s d
  if sl.length < cfg.dMid + 5 then none
  else
    let currentClose := lastClose sl
    let ep := entry.price
    if useCache then
      match s.findIdx? (fun b => b.date = d) with
      | none => none  -- KeyError on ind["d_mm"].index.get_loc(current_date)
      | some idx =>
        match rollingMeanAt cfg.dMid (s.map (·.close)) idx with
        | none => none  -- pd.isna(current_ma20)
        | some ma20 =>
          let last3Close := (sl.map (·.close)).drop (sl.length - 3)
          let last3Ma := (List.range' (idx - 2) 3).map
            (rollingMeanAt cfg.dMid (s.map (·.close)))
          let r3 : Bool := decide (2 ≤ idx) &&
            (List.zip last3Close last3Ma).all (fun p => oLT (some p.1) p.2)
          exitChain d currentClose ep (some ma20) r3
            (rollingMeanAt 20 (s.map (·.volume)) idx)
            (some (barAt s idx).volume) entry.date
    else
      let closes := sl.map (·.close)
      let ma20O := rollingMeanAt cfg.dMid closes (sl.length - 1)
      let last3Close := closes.drop (sl.length - 3)
      let last3Ma := (List.range' (sl.length - 3) 3).map (rollingMeanAt cfg.dMid closes)
      let r3 : Bool := decide (3 ≤ sl.length) && decide (3 ≤ dropNaCount cfg.dMid closes) &&
        (List.zip last3Close last3Ma).all (fun p => oLT (some p.1) p.2)
      let vols := sl.map (·.volume)
      let avgVolO : Option ℚ :=
        some (if 20 ≤ vols.length then (vols.drop (vols.length - 20)).sum / 20 else 0)
      exitChain d currentClose ep ma20O r3 avgVolO vols.getLast? entry.date

-- ---------------------------------------------------------------------------
-- Trade records and the single-ticker engine (simulation/engine.py)
-- ---------------------------------------------------------------------------

structure Trade where
  ticker : String
  entryDate : ℕ
  entryPrice : ℚ
  entryReason : String
  exitDate : ℕ
  exitPrice : ℚ
  exitReason : String
  returnPct : ℚ
  holdDays : ℤ
  deriving Repr, DecidableEq

/-- A completed `Trade(...)` as both engines build it:
`return_pct = round((exit-entry)/entry*100, 2)`, `hold_days = (exit-entry).days`. -/
def mkTrade (ticker : String) (p : EntrySignal) (exitDate : ℕ) (exitPrice : ℚ)
    (exitReason : String) : Trade :=
  ⟨ticker, p.date, p.price, p.reason, exitDate, exitPrice, exitReason,
    roundTo 2 ((exitPrice - p.price) / p.price * 100),
    (exitDate : ℤ) - (p.date : ℤ)⟩

/-- One row of the single-ticker equity curve. -/
structure EquityRow where
  date : ℕ
  equity : ℚ
  positionValue : ℚ
  cash : ℚ
  deriving Repr, DecidableEq

/-- Mutable state of `SimulationEngine.simulate_ticker`'s day loop. -/
structure EngState where
  trades : List Trade
  position : Option EntrySignal
  shares : ℚ
  cash : ℚ
  rows : List EquityRow
  deriving Repr, DecidableEq

/-- Overwrite the last element (`rows[-1] = ...`; no-op on empty). -/
def modifyLast {α : Type} (f : α → α) : List α → List α
  | [] => []
  | [a] => [f a]
  | a :: b :: rest => a :: modifyLast f (b :: rest)

/-- One simulated day of `SimulationEngine.simulate_ticker`: entry check when
flat, exit check when in a position, then append the day's equity row.  The
engine is generic over the scanner: `entryF d` is
`analyzer.check_entry_signal(ticker, ohlcv, fundamentals, d)` and
`exitF p d` is `analyzer.check_exit_signal(ticker, ohlcv, p, d)`. -/
def singleStep (ticker : String) (psize : ℚ)
    (entryF : ℕ → Option EntrySignal)
    (exitF : EntrySignal → ℕ → Option ExitSignal)
    (st : EngState) (bar : Bar) : EngState :=
  let price := bar.close
  match st.position with
  | none =>
    match entryF bar.date with
    | none =>
      { st with rows := st.rows ++ [⟨bar.date, st.cash + 0, 0, st.cash⟩] }
    | some e =>
      let sh := st.cash * psize / e.price
      let cash' := st.cash - sh * e.price
      let pv := sh * price
      { trades := st.trades, position := some e, shares := sh, cash := cash',
        rows := st.rows ++ [⟨bar.date, cash' + pv, pv, cash'⟩] }
  | some p =>
    let pv := st.shares * price
    match exitF p bar.date with
    | none =>
      { st with rows := st.rows ++ [⟨bar.date, st.cash + pv, pv, st.cash⟩] }
    | some x =>
      let cash' := st.cash + st.shares * x.price
      { trades := st.trades ++ [mkTrade ticker p x.date x.price x.reason],
        position := none, shares := 0, cash := cash',
        rows := st.rows ++ [⟨bar.date, cash' + 0, 0, cash'⟩] }

/-- `SimulationEngine.simulate_ticker` on an already-windowed series
`simBars` (= `ohlcv.loc[start_date:end_date]`), through the end-of-data
force close and final-row correction. -/
def simulateTicker (ticker : String) (icap psize : ℚ)
    (entryF : ℕ → Option EntrySignal)
    (exitF : EntrySignal → ℕ → Option ExitSignal)
    (simBars : List Bar) : EngState :=
  let st := simBars.foldl (singleStep ticker psize entryF exitF)
    ⟨[], none, 0, icap, []⟩
  match st.position, simBars.getLast? with
  | some p, some lb =>
    let cash' := st.cash + st.shares * lb.close
    { trades := st.trades ++ [mkTrade ticker p lb.date lb.close "END_OF_DATA"],
      position := none, shares := 0, cash := cash',
      rows := modifyLast
        (fun r => { r with equity := cash', positionValue := 0, cash := cash' })
        st.rows }
  | _, _ => st

/-- `ohlcv.loc[start_date:end_date]` for the simulation window. -/
def simWindow (s : List Bar) (startD endD : ℕ) : List Bar :=
  s.filter (fun b => startD ≤ b.date ∧ b.date ≤ endD)

/-- `ohlcv.index.searchsorted(t)` on a sorted index: the number of dates
strictly before `t`. -/
def searchSortedCount (dates : List ℕ) (t : ℕ) : ℕ :=
  dates.countP (fun x => x < t)

/-- The default start date chosen by `simulate_ticker` when `start_date` is
omitted: `ohlcv.index[max(50, ohlcv.index.searchsorted(end - 1 year))]`.
`pd.DateOffset(years=1)` is modelled as 365 days (only `end - 1yr ≤ end`
matters).  `none` models the raised IndexError: on an empty index
(`ohlcv.index[-1]`) or an out-of-bounds positional lookup. -/
def defaultStartDate (dates : List ℕ) : Option ℕ :=
  match dates.getLast? with
  | none => none
  | some endD => dates[max 50 (searchSortedCount dates (endD - 365))]?

-- ---------------------------------------------------------------------------
-- Portfolio engine (simulation/portfolio.py)
-- ---------------------------------------------------------------------------

structure OpenPos where
  ticker : String
  entry : EntrySignal
  shares : ℚ
  costBasis : ℚ
  deriving Repr, DecidableEq

structure PRow where
  date : ℕ
  equity : ℚ
  cash : ℚ
  positionsValue : ℚ
  numPositions : ℕ
  deriving Repr, DecidableEq

/-- Mutable state of `PortfolioEngine.simulate`'s day loop.  `openPos`
models the insertion-ordered Python dict `open_positions`. -/
structure PState where
  cash : ℚ
  openPos : List (String × OpenPos)
  trades : List Trade
  rows : List PRow
  deriving Repr, DecidableEq

def dictKeys {β : Type} (l : List (String × β)) : List String := l.map (·.1)

/-- Python dict assignment `d[k] = v`: replace in place, else append. -/
def dictInsert {β : Type} : List (String × β) → String → β → List (String × β)
  | [], k, v => [(k, v)]
  | (k', v') :: rest, k, v =>
    if k' = k then (k, v) :: rest else (k', v') :: dictInsert rest k v

/-- Step A of the day loop: the open positions whose ticker trades today and
whose scanner returns an exit signal, in dict order. -/
def exitsOn (exitF : String → EntrySignal → ℕ → Option ExitSignal)
    (data : String → List Bar) (d : ℕ) (opn : List (String × OpenPos)) :
    List (String × OpenPos × ExitSignal) :=
  opn.filterMap (fun p =>
    if d ∈ datesOf (data p.1) then
      (exitF p.1 p.2.entry d).map (fun x => (p.1, p.2, x))
    else none)

/-- Step B candidate gathering: every valid ticker that is not currently
open and trades today, with its entry signal and the score from signal
metadata (`entry.metadata.get("score", 0)`). -/
def gatherCands (entryF : String → ℕ → Option EntrySignal)
    (data : String → List Bar) (validTickers : List String)
    (opn : List (String × OpenPos)) (d : ℕ) :
    List (ℚ × String × EntrySignal) :=
  validTickers.filterMap (fun t =>
    if t ∈ dictKeys opn then none
    else if d ∈ datesOf (data t) then
      (entryF t d).map (fun e => (e.meta.score?.getD 0, t, e))
    else none)

/-- Stable insertion for descending-by-score order: equal scores keep their
original relative order, matching Python's stable `sort(reverse=True)`. -/
def insertDesc (x : ℚ × String × EntrySignal) :
    List (ℚ × String × EntrySignal) → List (ℚ × String × EntrySignal)
  | [] => [x]
  | y :: ys => if y.1 < x.1 then x :: y :: ys else y :: insertDesc x ys

/-- `candidates.sort(key=lambda x: x[0], reverse=True)`. -/
def sortCandsDesc (l : List (ℚ × String × EntrySignal)) :
    List (ℚ × String × EntrySignal) :=
  l.foldr insertDesc []

/-- The position-opening loop over the chosen candidates: each position is
sized `min(position_dollar_size, cash)` and the loop `break`s once that is
below half the target size. -/
def openFold (pds : ℚ) :
    List (ℚ × String × EntrySignal) → ℚ → List (String × OpenPos) →
    ℚ × List (String × OpenPos)
  | [], cash, opn => (cash, opn)
  | (_, t, e) :: rest, cash, opn =>
    let dollars := min pds cash
    if dollars < pds * (1/2) then (cash, opn)
    else
      let sh := dollars / e.price
      openFold pds rest (cash - sh * e.price)
        (dictInsert opn t ⟨t, e, sh, sh * e.price⟩)

/-- Step B of the day loop (`# Step B: Check ENTRIES`). -/
def entriesStepCode (maxPositions : ℤ) (pds : ℚ)
    (entryF : String → ℕ → Option EntrySignal) (data : String → List Bar)
    (validTickers : List String) (d : ℕ) (cash : ℚ)
    (opn : List (String × OpenPos)) : ℚ × List (String × OpenPos) :=
  let slots : ℤ := maxPositions - opn.length
  if 0 < slots ∧ pds * (1/2) ≤ cash then
    let cands := gatherCands entryF data validTickers opn d
    openFold pds ((sortCandsDesc cands).take slots.toNat) cash opn
  else (cash, opn)

/-- Today's close of the bar dated `d`, if the ticker trades today. -/
def closeOn (s : List Bar) (d : ℕ) : Option ℚ :=
  (s.find? (fun b => b.date = d)).map (·.close)

/-- Step C mark-to-market price: today's close, else the last prior close,
else the entry price. -/
def markPrice (s : List Bar) (d : ℕ) (pos : OpenPos) : ℚ :=
  match closeOn s d with
  | some c => c
  | none =>
    match (s.filter (fun b => b.date < d)).getLast? with
    | some b => b.close
    | none => pos.entry.price

/-- One simulated day of `PortfolioEngine.simulate`: exits first, then
entries, then the equity row. -/
def portStep (maxPositions : ℤ) (pds : ℚ) (validTickers : List String)
    (data : String → List Bar) (entryF : String → ℕ → Option EntrySignal)
    (exitF : String → EntrySignal → ℕ → Option ExitSignal)
    (st : PState) (d : ℕ) : PState :=
  -- Step A: exits
  let exits := exitsOn exitF data d st.openPos
  let cashA := st.cash + (exits.map (fun e => e.2.1.shares * e.2.2.price)).sum
  let tradesA := st.trades ++
    exits.map (fun e => mkTrade e.1 e.2.1.entry e.2.2.date e.2.2.price e.2.2.reason)
  let openA := st.openPos.filter (fun p => p.1 ∉ exits.map (·.1))
  -- Step B: entries
  let cb := entriesStepCode maxPositions pds entryF data validTickers d cashA openA
  -- Step C: equity row
  let pv := (cb.2.map (fun p => p.2.shares * markPrice (data p.1) d p.2)).sum
  { cash := cb.1, openPos := cb.2, trades := tradesA,
    rows := st.rows ++ [⟨d, cb.1 + pv, cb.1, pv, cb.2.length⟩] }

/-- Phase 4: force-close every remaining position at the last available
price on the final simulated date and correct the final equity row to an
all-cash state. -/
def portForceClose (data : String → List Bar) (lastD : ℕ) (st : PState) :
    PState :=
  let closes := st.openPos.map (fun p =>
    let lastPrice := match ((data p.1).filter (fun b => b.date ≤ lastD)).getLast? with
      | some b => b.close
      | none => p.2.entry.price
    (p.1, p.2, lastPrice))
  let cash' := st.cash + (closes.map (fun e => e.2.1.shares * e.2.2)).sum
  { cash := cash', openPos := [],
    trades := st.trades ++
      closes.map (fun e => mkTrade e.1 e.2.1.entry lastD e.2.2 "END_OF_DATA"),
    rows := modifyLast (fun r => ⟨r.date, cash', cash', 0, 0⟩) st.rows }

/-- `PortfolioEngine.simulate` from the start of the day loop (Phase 3) to
the forced close (Phase 4), on the unified simulated calendar `simDates`
(sorted unique dates clipped to the window; `position_dollar_size = pds =
initial_capital * position_size`).  An empty calendar returns the empty
all-cash result before the loop, as the source does. -/
def portSimulate (maxPositions : ℤ) (icap pds : ℚ)
    (validTickers : List String) (data : String → List Bar)
    (entryF : String → ℕ → Option EntrySignal)
    (exitF : String → EntrySignal → ℕ → Option ExitSignal)
    (simDates : List ℕ) : PState :=
  match simDates with
  | [] => ⟨icap, [], [], []⟩
  | _ =>
    let st := simDates.foldl
      (portStep maxPositions pds validTickers data entryF exitF)
      ⟨icap, [], [], []⟩
    portForceClose data (simDates.getLastD 0) st

-- ---------------------------------------------------------------------------
-- Spec-side definitions (refinement targets, written from the spec's words)
-- ---------------------------------------------------------------------------

/-- Spec-side entry allocation, following the spec's words: "open positions
for the top `available_slots` candidates in that order, each sized at
min(configured per-position dollars, remaining cash), **skipping** any
candidate once remaining cash falls below half the target position size"
(a per-candidate skip rather than the code's `break`). -/
def skipFold (pds : ℚ) :
    List (ℚ × String × EntrySignal) → ℚ → List (String × OpenPos) →
    ℚ × List (String × OpenPos)
  | [], cash, opn => (cash, opn)
  | (_, t, e) :: rest, cash, opn =>
    if cash < pds * (1/2) then skipFold pds rest cash opn
    else
      let dollars := min pds cash
      let sh := dollars / e.price
      skipFold pds rest (cash - sh * e.price)
        (dictInsert opn t ⟨t, e, sh, sh * e.price⟩)

/-- Spec-side entry selection: "compute available slots = max_positions −
currently open count. If slots > 0 and cash ≥ half a position's target
dollar size, query every non-open ticker trading today for an entry signal,
collect all that fire with their score (from signal metadata, default 0 if
absent), sort descending by score, and open positions for the top
`available_slots` candidates in that order" with the skip-sizing rule of
`skipFold`. -/
def entriesSelSpec (maxPositions : ℤ) (pds : ℚ)
    (entryF : String → ℕ → Option EntrySignal) (data : String → List Bar)
    (validTickers : List String) (d : ℕ) (cash : ℚ)
    (opn : List (String × OpenPos)) : ℚ × List (String × OpenPos) :=
  let slots : ℤ := maxPositions - opn.length
  if 0 < slots ∧ pds * (1/2) ≤ cash then
    skipFold pds
      ((sortCandsDesc (gatherCands entryF data validTickers opn d)).take slots.toNat)
      cash opn
  else (cash, opn)

/-- The 20-day average volume of the history up to `d`
(`volume.iloc[-20:].mean()`, 0 with fewer than 20 bars). -/
def avgVol20 (s : List Bar) (d : ℕ) : ℚ :=
  let vols := (sliceLE s d).map (·.volume)
  if 20 ≤ vols.length then (vols.drop (vols.length - 20)).sum / 20 else 0

/-- Spec-side exit decision: the six exit rules of the claim, evaluated in
priority order on the history up to `d`, with rule 5 in its amended form —
positive 20-day average volume and volume **strictly greater** than twice
it.  Returns the reason of the first matching rule. -/
def exitDecisionSpec (s : List Bar) (e : EntrySignal) (d : ℕ) : Option String :=
  let sl := sliceLE s d
  let closes := sl.map (·.close)
  let c := lastClose sl
  let ma20 := rollingMeanAt 20 closes (sl.length - 1)
  if c < e.price * (9/10) then some "STOP_LOSS"
  else if e.price * (23/20) < c then some "PROFIT_TARGET"
  else if (List.zip (closes.drop (sl.length - 3))
      ((List.range' (sl.length - 3) 3).map (rollingMeanAt 20 closes))).all
      (fun p => oLT (some p.1) p.2) then some "MA20_BREAKDOWN"
  else if oGT ma20 (some 0) &&
      oLT (ma20.map (fun m => (c - m) / m * 100)) (some (-5)) then some "SHARP_DROP"
  else if oLT (some c) ma20 && oGT (some (avgVol20 s d)) (some 0) &&
      oGT ((sl.getLast?).map (·.volume)) (some (avgVol20 s d * 2)) then
    some "VOLUME_BREAKDOWN"
  else if 30 ≤ (d : ℤ) - (e.date : ℤ) then some "TIME_EXIT"
  else none

/-- The claim's exit decision exactly as stated: identical to
`exitDecisionSpec` except rule 5 fires on "close below the medium MA on a
day with volume ≥ 2× the 20-day average volume". -/
def exitDecisionClaim (s : List Bar) (e : EntrySignal) (d : ℕ) : Option String :=
  let sl := sliceLE s d
  let closes := sl.map (·.close)
  let c := lastClose sl
  let ma20 := rollingMeanAt 20 closes (sl.length - 1)
  if c < e.price * (9/10) then some "STOP_LOSS"
  else if e.price * (23/20) < c then some "PROFIT_TARGET"
  else if (List.zip (closes.drop (sl.length - 3))
      ((List.range' (sl.length - 3) 3).map (rollingMeanAt 20 closes))).all
      (fun p => oLT (some p.1) p.2) then some "MA20_BREAKDOWN"
  else if oGT ma20 (some 0) &&
      oLT (ma20.map (fun m => (c - m) / m * 100)) (some (-5)) then some "SHARP_DROP"
  else if oLT (some c) ma20 &&
      oLE (some (avgVol20 s d * 2)) ((sl.getLast?).map (·.volume)) then
    some "VOLUME_BREAKDOWN"
  else if 30 ≤ (d : ℤ) - (e.date : ℤ) then some "TIME_EXIT"
  else none

-- ---------------------------------------------------------------------------
-- Concrete series used by counterexamples and witnesses
-- ---------------------------------------------------------------------------

/-- Flat all-equal-price bar. -/
def flatBar (d : ℕ) (p : ℚ) (v : ℚ) : Bar := ⟨d, p, p, p, p, v⟩

/-- 71 trading dates: weeks 0–9 with four bars each, weeks 10–19 with three
bars each, and a single bar (a Monday) in week 20. -/
def c3dates : List ℕ :=
  ((List.range 10).flatMap (fun w => [7*w, 7*w+1, 7*w+2, 7*w+3])) ++
  ((List.range 10).flatMap (fun w => [7*(w+10), 7*(w+10)+1, 7*(w+10)+2])) ++ [140]

/-- A slowly rising series on `c3dates` (close 1000 + bar index): 71 bars,
21 distinct weeks. -/
def c3s1 : List Bar :=
  c3dates.enum.map (fun p => flatBar p.2 (1000 + (p.1 : ℚ)) 90)

/-- `c3s1` extended with one bar the week after date 140: agrees with
`c3s1` on every bar dated ≤ 140, but has 22 weekly bars. -/
def c3s2 : List Bar := c3s1 ++ [flatBar 147 1071 90]

/-- 74 trading dates spanning 22 weeks, ending at a Monday in week 21. -/
def c8dates : List ℕ :=
  ((List.range 10).flatMap (fun w => [7*w, 7*w+1, 7*w+2, 7*w+3])) ++
  ((List.range 11).flatMap (fun w => [7*(w+10), 7*(w+10)+1, 7*(w+10)+2])) ++ [147]

/-- A slowly rising 74-bar series on which `scanEP` fires (a TOUCH of the
10-day MA on the final bar). -/
def c8s : List Bar :=
  c8dates.enum.map (fun p => flatBar p.2 (1000 + (p.1 : ℚ)) 90)

/-- 25 flat bars at price 100 and volume 90, except the last bar closes at
97 on volume 190 — exactly twice the 20-day average volume (190 = 2 × 95),
with the close below the 20-day MA but within every other exit threshold. -/
def c2s : List Bar :=
  (List.range 24).map (fun i => flatBar i 100 90) ++ [flatBar 24 97 190]

def c2entry : EntrySignal := ⟨10, 100, "BUY", {}⟩

-- ---------------------------------------------------------------------------
-- Claim C8 — score clamping
-- ---------------------------------------------------------------------------

/-- Claim C8: for every ScanResult instance the score lies in [0, 100] — it
is clamped into that interval on construction (`__post_init__`), so no
scanner evaluation (`scanEP`) can produce a result whose score is negative
or exceeds 100. -/
theorem c8_score_bounds :
    (∀ (t : String) (sc : ℚ) (sig : String) (det : Meta),
      0 ≤ (mkScanResult t sc sig det).score ∧
        (mkScanResult t sc sig det).score ≤ 100) ∧
    (∀ (cfg : Cfg) (t : String) (s : List Bar) (f : Fund),
      0 ≤ ((scanEP cfg t s f).map ScanResult.score).getD 0 ∧
        ((scanEP cfg t s f).map ScanResult.score).getD 0 ≤ 100) := by
  have hmk : ∀ (t : String) (sc : ℚ) (sig : String) (det : Meta),
      0 ≤ (mkScanResult t sc sig det).score ∧
        (mkScanResult t sc sig det).score ≤ 100 := by
    intro t sc sig det
    unfold mkScanResult
    exact ⟨le_max_left 0 _, max_le (by norm_num) (min_le_left _ _)⟩
  refine ⟨hmk, ?_⟩
  intro cfg t s f
  unfold scanEP
  cases hci : computeIndicators cfg s with
  | none => simp
  | some ind =>
    dsimp only
    cases hce : checkEntryAt cfg s (s.length - 1) ind with
    | none => simp [hce]
    | some r =>
      simpa using hmk t r.score r.signal _

-- ---------------------------------------------------------------------------
-- Claim C10 — default start-date selection is in bounds iff length > 50
-- ---------------------------------------------------------------------------

/-- Claim C10: with `start_date` omitted, `simulate_ticker` picks
`ohlcv.index[max(50, searchsorted(end − 1yr))]`; on a nonempty sorted index
this positional lookup is in bounds (no IndexError) iff the series has more
than 50 bars. -/
theorem c10_default_start (dates : List ℕ)
    (hs : List.Pairwise (· < ·) dates) (hne : dates ≠ []) :
    (defaultStartDate dates).isSome = true ↔ 50 < dates.length := by
  obtain ⟨endD, hlast⟩ : ∃ e, dates.getLast? = some e := by
    cases h : dates.getLast? with
    | none => exact absurd (List.getLast?_eq_none_iff.mp h) hne
    | some e => exact ⟨e, rfl⟩
  have hdef : defaultStartDate dates =
      dates[max 50 (searchSortedCount dates (endD - 365))]? := by
    simp only [defaultStartDate, hlast]
  rw [hdef]
  constructor
  · intro h
    by_contra hlt
    rw [List.getElem?_eq_none
      (le_trans (by omega) (le_max_left 50 (searchSortedCount dates (endD - 365))))] at h
    simp at h
  · intro h
    have hmem : endD ∈ dates := List.mem_of_mem_getLast? hlast
    have hcnt : searchSortedCount dates (endD - 365) < dates.length := by
      refine lt_of_le_of_ne (List.countP_le_length _) ?_
      intro hEq
      have hall := List.countP_eq_length.mp hEq endD hmem
      have : ¬ (endD < endD - 365) := by omega
      simp [this] at hall
    rw [List.getElem?_eq_getElem (max_lt (by omega) hcnt)]
    rfl

/-- Witness for C10 at a concrete 51-bar index. -/
theorem c10_witness : (defaultStartDate (List.range 51)).isSome = true :=
  (c10_default_start (List.range 51) (by simpa using List.pairwise_lt_range 51)
    (by decide)).mpr (by simp)

-- ---------------------------------------------------------------------------
-- Claim C7 — insufficient data yields "no verdict", not an error
-- ---------------------------------------------------------------------------

/-- Claim C7: for every series shorter than the longest required lookback —
fewer than `d_slow + 20` daily bars, or fewer than `w_mid + 2` weekly bars —
the concrete scanner's indicator computation and `scan` return none (the
embedding is total, so no exception is possible), which callers treat as
skipping that ticker/day. -/
theorem c7_insufficient (cfg : Cfg) (t : String) (f : Fund) (s : List Bar) :
    (s.length < cfg.dSlow + 20 →
      computeIndicators cfg s = none ∧ scanEP cfg t s f = none) ∧
    ((weeklyCloses s).length < cfg.wMid + 2 →
      computeIndicators cfg s = none ∧ scanEP cfg t s f = none) := by
  have hscan : computeIndicators cfg s = none → scanEP cfg t s f = none := by
    intro h; unfold scanEP; rw [h]
  have h1 : s.length < cfg.dSlow + 20 → computeIndicators cfg s = none := by
    intro h; unfold computeIndicators; rw [if_pos h]
  have h2 : (weeklyCloses s).length < cfg.wMid + 2 →
      computeIndicators cfg s = none := by
    intro h
    unfold computeIndicators
    by_cases hA : s.length < cfg.dSlow + 20
    · rw [if_pos hA]
    · rw [if_neg hA, if_pos h]
  exact ⟨fun h => ⟨h1 h, hscan (h1 h)⟩, fun h => ⟨h2 h, hscan (h2 h)⟩⟩

/-- Witness for C7 on a one-bar series (short on both counts). -/
theorem c7_witness :
    [flatBar 0 1 1].length < defaultCfg.dSlow + 20 ∧
    (weeklyCloses [flatBar 0 1 1]).length < defaultCfg.wMid + 2 ∧
    computeIndicators defaultCfg [flatBar 0 1 1] = none ∧
    scanEP defaultCfg "T" [flatBar 0 1 1] {} = none := by
  refine ⟨by decide, by decide, ?_⟩
  exact (c7_insufficient defaultCfg "T" {} [flatBar 0 1 1]).1 (by decide)

-- ---------------------------------------------------------------------------
-- Claim C6 — default (base-class) check_entry_signal behaviour
-- ---------------------------------------------------------------------------

/-- Claim C6: the default `check_entry_signal` truncates the series to bars
dated ≤ `as_of_date`; returns none below 50 bars of truncated history;
returns none when `scan` returns none; and otherwise wraps the positive scan
result as an EntrySignal dated `as_of_date`, priced at the truncated series'
last close, with the scan result's signal and details. -/
theorem c6_base_entry (scanF : List Bar → Option ScanResult)
    (s : List Bar) (d : ℕ) :
    (∀ b ∈ sliceLE s d, b.date ≤ d) ∧
    ((sliceLE s d).length < 50 → baseCheckEntrySignal scanF s d = none) ∧
    (scanF (sliceLE s d) = none → baseCheckEntrySignal scanF s d = none) ∧
    (∀ r, 50 ≤ (sliceLE s d).length → scanF (sliceLE s d) = some r →
      baseCheckEntrySignal scanF s d =
        some ⟨d, lastClose (sliceLE s d), r.signal, r.details⟩) := by
  refine ⟨?_, ?_, ?_, ?_⟩
  · intro b hb
    simp only [sliceLE, List.mem_filter, decide_eq_true_eq] at hb
    exact hb.2
  · intro h
    unfold baseCheckEntrySignal
    dsimp only
    rw [if_pos h]
  · intro h
    unfold baseCheckEntrySignal
    dsimp only
    split_ifs with hl
    · rfl
    · rw [h]
  · intro r hlen hsc
    unfold baseCheckEntrySignal
    dsimp only
    rw [if_neg (by omega), hsc]

def c6scan : List Bar → Option ScanResult := fun _ => some (mkScanResult "T" 50 "BUY" {})

def c6s : List Bar := (List.range 50).map (fun i => flatBar i 1 1)

/-- Witness for C6: the short-history branch and a full positive wrap. -/
theorem c6_witness :
    baseCheckEntrySignal c6scan [] 0 = none ∧
    baseCheckEntrySignal c6scan c6s 49 = some ⟨49, 1, "BUY", {}⟩ := by
  constructor
  · exact (c6_base_entry c6scan [] 0).2.1 (by decide)
  · have h := (c6_base_entry c6scan c6s 49).2.2.2 (mkScanResult "T" 50 "BUY" {})
      (by decide) rfl
    rw [h]
    decide

-- ---------------------------------------------------------------------------
-- Engine loop lemmas
-- ---------------------------------------------------------------------------

theorem modifyLast_length {α : Type} (f : α → α) :
    ∀ l : List α, (modifyLast f l).length = l.length
  | [] => rfl
  | [_] => rfl
  | a :: b :: rest => by
    simpa [modifyLast] using modifyLast_length f (b :: rest)

theorem getLast?_cons_ne {α : Type} (a : α) (l : List α) (h : l ≠ []) :
    (a :: l).getLast? = l.getLast? := by
  cases l with
  | nil => exact absurd rfl h
  | cons b rest => exact List.getLast?_cons_cons

theorem modifyLast_ne_nil {α : Type} (f : α → α) (l : List α) (h : l ≠ []) :
    modifyLast f l ≠ [] := by
  intro hcon
  have := modifyLast_length f l
  rw [hcon] at this
  cases l with
  | nil => exact h rfl
  | cons a rest => simp at this

theorem modifyLast_getLast? {α : Type} (f : α → α) :
    ∀ l : List α, l ≠ [] → (modifyLast f l).getLast? = (l.getLast?).map f
  | [], h => absurd rfl h
  | [a], _ => rfl
  | a :: b :: rest, _ => by
    rw [modifyLast, getLast?_cons_ne a _ (modifyLast_ne_nil f (b :: rest) (by simp)),
      getLast?_cons_ne a (b :: rest) (by simp),
      modifyLast_getLast? f (b :: rest) (by simp)]

theorem singleStep_rows_len (ticker : String) (psize : ℚ)
    (entryF : ℕ → Option EntrySignal) (exitF : EntrySignal → ℕ → Option ExitSignal)
    (st : EngState) (b : Bar) :
    ((singleStep ticker psize entryF exitF st b).rows).length = st.rows.length + 1 := by
  unfold singleStep
  cases st.position with
  | none =>
    dsimp only
    cases entryF b.date <;> simp
  | some p =>
    dsimp only
    cases exitF p b.date <;> simp

theorem foldl_singleStep_rows_len (ticker : String) (psize : ℚ)
    (entryF : ℕ → Option EntrySignal) (exitF : EntrySignal → ℕ → Option ExitSignal) :
    ∀ (bars : List Bar) (st : EngState),
      ((bars.foldl (singleStep ticker psize entryF exitF) st).rows).length
        = st.rows.length + bars.length
  | [], st => rfl
  | b :: bs, st => by
    rw [List.foldl_cons, foldl_singleStep_rows_len ticker psize entryF exitF bs _,
      singleStep_rows_len]
    simp [Nat.add_assoc, Nat.add_comm 1 bs.length]

theorem singleStep_lastrow (ticker : String) (psize : ℚ)
    (entryF : ℕ → Option EntrySignal) (exitF : EntrySignal → ℕ → Option ExitSignal)
    (st : EngState) (b : Bar) :
    ∀ r, ((singleStep ticker psize entryF exitF st b).rows).getLast? = some r →
      (singleStep ticker psize entryF exitF st b).position = none →
      r.positionValue = 0 ∧ r.equity = r.cash := by
  unfold singleStep
  cases st.position with
  | none =>
    dsimp only
    cases entryF b.date with
    | none =>
      intro r hr _
      rw [List.getLast?_concat] at hr
      cases hr
      norm_num
    | some e =>
      intro r _ hpos
      simp at hpos
  | some p =>
    dsimp only
    cases exitF p b.date with
    | none =>
      intro r _ hpos
      simp at hpos
    | some x =>
      intro r hr _
      rw [List.getLast?_concat] at hr
      cases hr
      norm_num

theorem foldl_singleStep_lastrow (ticker : String) (psize : ℚ)
    (entryF : ℕ → Option EntrySignal) (exitF : EntrySignal → ℕ → Option ExitSignal) :
    ∀ (bars : List Bar) (st : EngState), bars ≠ [] →
      ∀ r, ((bars.foldl (singleStep ticker psize entryF exitF) st).rows).getLast? = some r →
        (bars.foldl (singleStep ticker psize entryF exitF) st).position = none →
        r.positionValue = 0 ∧ r.equity = r.cash
  | [], _, h => absurd rfl h
  | [b], st, _ => by
    simpa using singleStep_lastrow ticker psize entryF exitF st b
  | b :: b' :: rest, st, _ => by
    simpa using foldl_singleStep_lastrow ticker psize entryF exitF (b' :: rest)
      (singleStep ticker psize entryF exitF st b) (by simp)

theorem portStep_rows_len (mp : ℤ) (pds : ℚ) (vt : List String)
    (data : String → List Bar) (entryF : String → ℕ → Option EntrySignal)
    (exitF : String → EntrySignal → ℕ → Option ExitSignal)
    (st : PState) (d : ℕ) :
    ((portStep mp pds vt data entryF exitF st d).rows).length = st.rows.length + 1 := by
  unfold portStep
  simp

theorem foldl_portStep_rows_len (mp : ℤ) (pds : ℚ) (vt : List String)
    (data : String → List Bar) (entryF : String → ℕ → Option EntrySignal)
    (exitF : String → EntrySignal → ℕ → Option ExitSignal) :
    ∀ (ds : List ℕ) (st : PState),
      ((ds.foldl (portStep mp pds vt data entryF exitF) st).rows).length
        = st.rows.length + ds.length
  | [], st => rfl
  | d :: ds, st => by
    rw [List.foldl_cons, foldl_portStep_rows_len mp pds vt data entryF exitF ds _,
      portStep_rows_len]
    simp [Nat.add_assoc, Nat.add_comm 1 ds.length]

-- ---------------------------------------------------------------------------
-- Claim C5 — equity-curve length and final-row liquidation
-- ---------------------------------------------------------------------------

/-- Claim C5: both engines produce exactly one equity row per simulated
trading day (curve length = number of simulated days), and — after the
end-of-data forced close — the final row shows full liquidation: position
value 0 and equity equal to cash. -/
theorem c5_equity_curve :
    (∀ (ticker : String) (icap psize : ℚ) (entryF : ℕ → Option EntrySignal)
        (exitF : EntrySignal → ℕ → Option ExitSignal) (simBars : List Bar),
      ((simulateTicker ticker icap psize entryF exitF simBars).rows).length
          = simBars.length ∧
      (simBars ≠ [] → ∀ r,
        ((simulateTicker ticker icap psize entryF exitF simBars).rows).getLast?
            = some r →
        r.positionValue = 0 ∧ r.equity = r.cash)) ∧
    (∀ (mp : ℤ) (icap pds : ℚ) (vt : List String) (data : String → List Bar)
        (entryF : String → ℕ → Option EntrySignal)
        (exitF : String → EntrySignal → ℕ → Option ExitSignal)
        (simDates : List ℕ),
      ((portSimulate mp icap pds vt data entryF exitF simDates).rows).length
          = simDates.length ∧
      (simDates ≠ [] → ∀ r,
        ((portSimulate mp icap pds vt data entryF exitF simDates).rows).getLast?
            = some r →
        r.positionsValue = 0 ∧ r.equity = r.cash)) := by
  constructor
  · intro ticker icap psize entryF exitF simBars
    have hlen := foldl_singleStep_rows_len ticker psize entryF exitF simBars
      ⟨[], none, 0, icap, []⟩
    unfold simulateTicker
    dsimp only
    cases hp : (simBars.foldl (singleStep ticker psize entryF exitF)
        ⟨[], none, 0, icap, []⟩).position with
    | none =>
      cases hl : simBars.getLast? with
      | none =>
        dsimp only
        refine ⟨by simpa using hlen, ?_⟩
        intro hne r hr
        exact foldl_singleStep_lastrow ticker psize entryF exitF simBars _ hne r hr hp
      | some lb =>
        dsimp only
        refine ⟨by simpa using hlen, ?_⟩
        intro hne r hr
        exact foldl_singleStep_lastrow ticker psize entryF exitF simBars _ hne r hr hp
    | some p =>
      cases hl : simBars.getLast? with
      | none =>
        exfalso
        have hnil : simBars = [] := List.getLast?_eq_none_iff.mp hl
        rw [hnil] at hp
        simp at hp
      | some lb =>
        dsimp only
        have hne : simBars ≠ [] := by
          intro hnil
          rw [hnil] at hl
          simp at hl
        have hrowsne : (simBars.foldl (singleStep ticker psize entryF exitF)
            ⟨[], none, 0, icap, []⟩).rows ≠ [] := by
          intro hnil
          rw [hnil] at hlen
          simp at hlen
          exact hne (List.length_eq_zero.mp hlen.symm)
        refine ⟨by simpa [modifyLast_length] using hlen, ?_⟩
        intro _ r hr
        rw [modifyLast_getLast? _ _ hrowsne] at hr
        obtain ⟨r0, _, hfr⟩ := Option.map_eq_some'.mp hr
        rw [← hfr]
        exact ⟨rfl, rfl⟩
  · intro mp icap pds vt data entryF exitF simDates
    cases simDates with
    | nil => exact ⟨rfl, fun h => absurd rfl h⟩
    | cons d ds =>
      have hlen := foldl_portStep_rows_len mp pds vt data entryF exitF (d :: ds)
        ⟨icap, [], [], []⟩
      have hrowsne : (((d :: ds).foldl (portStep mp pds vt data entryF exitF)
          ⟨icap, [], [], []⟩).rows) ≠ [] := by
        intro hnil
        rw [hnil] at hlen
        simp at hlen
      unfold portSimulate portForceClose
      refine ⟨by simpa [modifyLast_length] using hlen, ?_⟩
      intro _ r hr
      dsimp only at hr
      rw [modifyLast_getLast? _ _ hrowsne] at hr
      obtain ⟨r0, _, hfr⟩ := Option.map_eq_some'.mp hr
      rw [← hfr]
      exact ⟨rfl, rfl⟩

/-- Witness for C5: a one-day single-ticker run and a one-day portfolio run. -/
theorem c5_witness :
    ((simulateTicker "T" 100 1 (fun _ => none) (fun _ _ => none)
        [flatBar 0 1 1]).rows).length = 1 ∧
    (∀ r, ((simulateTicker "T" 100 1 (fun _ => none) (fun _ _ => none)
        [flatBar 0 1 1]).rows).getLast? = some r →
      r.positionValue = 0 ∧ r.equity = r.cash) ∧
    ((portSimulate 1 100 10 [] (fun _ => []) (fun _ _ => none)
        (fun _ _ _ => none) [0]).rows).length = 1 ∧
    (∀ r, ((portSimulate 1 100 10 [] (fun _ => []) (fun _ _ => none)
        (fun _ _ _ => none) [0]).rows).getLast? = some r →
      r.positionsValue = 0 ∧ r.equity = r.cash) := by
  refine ⟨(c5_equity_curve.1 "T" 100 1 (fun _ => none) (fun _ _ => none)
      [flatBar 0 1 1]).1, ?_, (c5_equity_curve.2 1 100 10 [] (fun _ => [])
      (fun _ _ => none) (fun _ _ _ => none) [0]).1, ?_⟩
  · intro r hr
    exact (c5_equity_curve.1 "T" 100 1 (fun _ => none) (fun _ _ => none)
      [flatBar 0 1 1]).2 (by simp) r hr
  · intro r hr
    exact (c5_equity_curve.2 1 100 10 [] (fun _ => []) (fun _ _ => none)
      (fun _ _ _ => none) [0]).2 (by simp) r hr

-- ---------------------------------------------------------------------------
-- Dict-key lemmas for the portfolio open-position map
-- ---------------------------------------------------------------------------

theorem dictInsert_mem_keys {β : Type} (k : String) (v : β) :
    ∀ (l : List (String × β)) (a : String),
      a ∈ dictKeys (dictInsert l k v) → a ∈ dictKeys l ∨ a = k
  | [], a, h => by
    simp [dictInsert, dictKeys] at h
    exact Or.inr h
  | (k', v') :: rest, a, h => by
    by_cases hk : k' = k
    · simp [dictInsert, hk, dictKeys] at h
      rcases h with h | h
      · exact Or.inr h
      · exact Or.inl (by simp [dictKeys, h])
    · simp only [dictInsert, if_neg hk, dictKeys, List.map_cons, List.mem_cons] at h
      rcases h with h | h
      · exact Or.inl (by simp [dictKeys, h])
      · rcases dictInsert_mem_keys k v rest a h with h' | h'
        · exact Or.inl (by simp [dictKeys] at h' ⊢; exact Or.inr h')
        · exact Or.inr h'

theorem dictInsert_nodup {β : Type} (k : String) (v : β) :
    ∀ l : List (String × β),
      (dictKeys l).Nodup → (dictKeys (dictInsert l k v)).Nodup
  | [], _ => by simp [dictInsert, dictKeys]
  | (k', v') :: rest, h => by
    simp only [dictKeys, List.map_cons, List.nodup_cons] at h
    by_cases hk : k' = k
    · simp only [dictInsert, if_pos hk, dictKeys, List.map_cons, List.nodup_cons]
      exact ⟨by rw [← hk]; exact h.1, h.2⟩
    · simp only [dictInsert, if_neg hk, dictKeys, List.map_cons, List.nodup_cons]
      refine ⟨?_, dictInsert_nodup k v rest h.2⟩
      intro hmem
      rcases dictInsert_mem_keys k v rest k' hmem with h' | h'
      · exact h.1 h'
      · exact hk h'

theorem openFold_nodup (pds : ℚ) :
    ∀ (cands : List (ℚ × String × EntrySignal)) (cash : ℚ)
      (opn : List (String × OpenPos)),
      (dictKeys opn).Nodup → (dictKeys (openFold pds cands cash opn).2).Nodup
  | [], _, _, h => h
  | (sc, t, e) :: rest, cash, opn, h => by
    rw [openFold]
    dsimp only
    split_ifs with hbr
    · exact h
    · exact openFold_nodup pds rest _ _ (dictInsert_nodup t _ opn h)

theorem entriesStepCode_nodup (mp : ℤ) (pds : ℚ)
    (entryF : String → ℕ → Option EntrySignal) (data : String → List Bar)
    (vt : List String) (d : ℕ) (cash : ℚ) (opn : List (String × OpenPos))
    (h : (dictKeys opn).Nodup) :
    (dictKeys (entriesStepCode mp pds entryF data vt d cash opn).2).Nodup := by
  unfold entriesStepCode
  dsimp only
  split_ifs with hg
  · exact openFold_nodup pds _ cash opn h
  · exact h

theorem filter_keys_nodup {β : Type} (l : List (String × β))
    (p : String × β → Bool) (h : (dictKeys l).Nodup) :
    (dictKeys (l.filter p)).Nodup :=
  ((List.filter_sublist l).map Prod.fst).nodup h

theorem portStep_nodup (mp : ℤ) (pds : ℚ) (vt : List String)
    (data : String → List Bar) (entryF : String → ℕ → Option EntrySignal)
    (exitF : String → EntrySignal → ℕ → Option ExitSignal)
    (st : PState) (d : ℕ) (h : (dictKeys st.openPos).Nodup) :
    (dictKeys (portStep mp pds vt data entryF exitF st d).openPos).Nodup := by
  unfold portStep
  dsimp only
  exact entriesStepCode_nodup mp pds entryF data vt d _ _
    (filter_keys_nodup st.openPos _ h)

theorem foldl_portStep_nodup (mp : ℤ) (pds : ℚ) (vt : List String)
    (data : String → List Bar) (entryF : String → ℕ → Option EntrySignal)
    (exitF : String → EntrySignal → ℕ → Option ExitSignal) :
    ∀ (ds : List ℕ) (st : PState), (dictKeys st.openPos).Nodup →
      (dictKeys ((ds.foldl (portStep mp pds vt data entryF exitF) st).openPos)).Nodup
  | [], _, h => h
  | d :: ds, st, h =>
    foldl_portStep_nodup mp pds vt data entryF exitF ds _
      (portStep_nodup mp pds vt data entryF exitF st d h)

-- ---------------------------------------------------------------------------
-- Claim C4 — at most one open position per ticker
-- ---------------------------------------------------------------------------

/-- Claim C4: at every point of a simulation each ticker has at most one
open position.  Portfolio engine: the open-position dict keeps one record
per ticker throughout the day loop (distinct keys from any distinct-key
state, hence per-ticker count ≤ 1), and entry gathering never queries a
ticker that already has an open position.  Single-ticker engine: the state
holds a single optional position slot, so at most one position exists after
any step. -/
theorem c4_one_position_per_ticker :
    (∀ (mp : ℤ) (pds : ℚ) (vt : List String) (data : String → List Bar)
        (entryF : String → ℕ → Option EntrySignal)
        (exitF : String → EntrySignal → ℕ → Option ExitSignal)
        (ds : List ℕ) (s0 : PState), (dictKeys s0.openPos).Nodup →
      (dictKeys ((ds.foldl (portStep mp pds vt data entryF exitF) s0).openPos)).Nodup
        ∧ ∀ tk, ((dictKeys ((ds.foldl (portStep mp pds vt data entryF exitF)
            s0).openPos)).count tk) ≤ 1) ∧
    (∀ (entryF : String → ℕ → Option EntrySignal) (data : String → List Bar)
        (vt : List String) (opn : List (String × OpenPos)) (d : ℕ)
        (c : ℚ × String × EntrySignal),
      c ∈ gatherCands entryF data vt opn d → c.2.1 ∉ dictKeys opn) ∧
    (∀ (ticker : String) (psize : ℚ) (entryF : ℕ → Option EntrySignal)
        (exitF : EntrySignal → ℕ → Option ExitSignal) (st : EngState) (b : Bar),
      ((singleStep ticker psize entryF exitF st b).position).toList.length ≤ 1) := by
  refine ⟨?_, ?_, ?_⟩
  · intro mp pds vt data entryF exitF ds s0 h0
    have hnd := foldl_portStep_nodup mp pds vt data entryF exitF ds s0 h0
    exact ⟨hnd, fun tk => List.nodup_iff_count_le_one.mp hnd tk⟩
  · intro entryF data vt opn d c hc
    simp only [gatherCands, List.mem_filterMap] at hc
    obtain ⟨t, _, hf⟩ := hc
    by_cases h1 : t ∈ dictKeys opn
    · simp [h1] at hf
    · by_cases h2 : d ∈ datesOf (data t)
      · simp only [if_neg h1, if_pos h2, Option.map_eq_some'] at hf
        obtain ⟨e, _, he⟩ := hf
        rw [← he]
        exact h1
      · simp [h1, h2] at hf
  · intro ticker psize entryF exitF st b
    cases hp : (singleStep ticker psize entryF exitF st b).position <;> simp [hp]

/-- Witness for C4 at a concrete two-day portfolio run, a concrete gathered
candidate, and a concrete single-engine step. -/
theorem c4_witness :
    (dictKeys ((([0, 1] : List ℕ).foldl
        (portStep 2 10 ["A"] (fun _ => [flatBar 0 1 1, flatBar 1 1 1])
          (fun _ _ => some ⟨0, 1, "BUY", {}⟩) (fun _ _ _ => none))
        ⟨100, [], [], []⟩).openPos)).Nodup ∧
    (((0 : ℚ), "A", (⟨0, 1, "BUY", {}⟩ : EntrySignal)).2.1 ∉
      dictKeys ([] : List (String × OpenPos))) ∧
    ((singleStep "T" 1 (fun _ => some ⟨0, 1, "BUY", {}⟩) (fun _ _ => none)
        ⟨[], none, 0, 100, []⟩ (flatBar 0 1 1)).position).toList.length ≤ 1 := by
  refine ⟨?_, ?_, ?_⟩
  · exact (c4_one_position_per_ticker.1 2 10 ["A"]
      (fun _ => [flatBar 0 1 1, flatBar 1 1 1])
      (fun _ _ => some ⟨0, 1, "BUY", {}⟩) (fun _ _ _ => none) [0, 1]
      ⟨100, [], [], []⟩ (by simp [dictKeys])).1
  · exact c4_one_position_per_ticker.2.1
      (fun _ _ => some ⟨0, 1, "BUY", {}⟩) (fun _ => [flatBar 0 1 1]) ["A"] [] 0
      ((0 : ℚ), "A", (⟨0, 1, "BUY", {}⟩ : EntrySignal))
      (by simp [gatherCands, dictKeys, datesOf, flatBar])
  · exact c4_one_position_per_ticker.2.2 "T" 1
      (fun _ => some ⟨0, 1, "BUY", {}⟩) (fun _ _ => none) ⟨[], none, 0, 100, []⟩
      (flatBar 0 1 1)

-- ---------------------------------------------------------------------------
-- Claim C1 — portfolio entry selection
-- ---------------------------------------------------------------------------

theorem skipFold_stuck (pds : ℚ) :
    ∀ (l : List (ℚ × String × EntrySignal)) (cash : ℚ)
      (opn : List (String × OpenPos)), cash < pds * (1/2) →
      skipFold pds l cash opn = (cash, opn)
  | [], _, _, _ => rfl
  | (sc, t, e) :: rest, cash, opn, h => by
    rw [skipFold, if_pos h]
    exact skipFold_stuck pds rest cash opn h

theorem openFold_eq_skipFold (pds : ℚ) (hpds : 0 ≤ pds) :
    ∀ (l : List (ℚ × String × EntrySignal)) (cash : ℚ)
      (opn : List (String × OpenPos)), 0 ≤ cash →
      openFold pds l cash opn = skipFold pds l cash opn
  | [], _, _, _ => rfl
  | (sc, t, e) :: rest, cash, opn, hc => by
    rw [openFold, skipFold]
    dsimp only
    by_cases hbr : min pds cash < pds * (1/2)
    · have hcash : cash < pds * (1/2) := by
        by_cases hpc : pds ≤ cash
        · rw [min_eq_left hpc] at hbr
          linarith
        · rwa [min_eq_right (le_of_not_le hpc)] at hbr
      rw [if_pos hbr, if_pos hcash, skipFold_stuck pds rest cash opn hcash]
    · have hcash : ¬ cash < pds * (1/2) := by
        intro h
        exact hbr (lt_of_le_of_lt (min_le_right pds cash) h)
      rw [if_neg hbr, if_neg hcash]
      refine openFold_eq_skipFold pds hpds rest _ _ ?_
      by_cases hp0 : e.price = 0
      · simp [hp0, hc]
      · rw [div_mul_cancel₀ _ hp0]
        have : min pds cash ≤ cash := min_le_right pds cash
        linarith

/-- Claim C1: the portfolio engine's entry step equals the spec's selection
rule — available slots = max_positions − open count; only with slots > 0
and cash ≥ half the target per-position size are non-open tickers trading
today queried; firing signals are collected with their metadata score
(default 0), sorted descending, and the top `available_slots` opened in
order, each sized min(per-position dollars, remaining cash), skipping
candidates once cash drops below half the target.  In particular, with
max_positions = 1 and two candidates of scores a > b, only the
higher-scoring ticker is opened. -/
theorem c1_entry_selection (mp : ℤ) (pds : ℚ)
    (entryF : String → ℕ → Option EntrySignal) (data : String → List Bar)
    (vt : List String) (d : ℕ) (hpds : 0 ≤ pds) :
    (∀ (cash : ℚ) (opn : List (String × OpenPos)),
      entriesStepCode mp pds entryF data vt d cash opn
        = entriesSelSpec mp pds entryF data vt d cash opn) ∧
    (∀ (a b : ℚ) (t1 t2 : String) (e1 e2 : EntrySignal) (cash : ℚ),
      gatherCands entryF data vt [] d = [(a, t1, e1), (b, t2, e2)] → b < a →
      pds * (1/2) ≤ cash →
      dictKeys ((entriesStepCode 1 pds entryF data vt d cash []).2) = [t1]) := by
  constructor
  · intro cash opn
    unfold entriesStepCode entriesSelSpec
    dsimp only
    split_ifs with hg
    · exact openFold_eq_skipFold pds hpds _ cash opn
        (le_trans (mul_nonneg hpds (by norm_num)) hg.2)
    · rfl
  · intro a b t1 t2 e1 e2 cash hg hab hcash
    unfold entriesStepCode
    rw [hg]
    dsimp only [dictKeys, List.length_nil]
    rw [if_pos ⟨by norm_num, by simpa using hcash⟩]
    have hsort : sortCandsDesc [(a, t1, e1), (b, t2, e2)] = [(a, t1, e1), (b, t2, e2)] := by
      unfold sortCandsDesc
      simp only [List.foldr_cons, List.foldr_nil]
      rw [insertDesc, insertDesc, if_pos (by simpa using hab)]
    rw [hsort]
    have htake : ((1 : ℤ) - 0).toNat = 1 := by decide
    rw [show ((1 : ℤ) - (0 : ℕ)).toNat = 1 by decide]
    rw [show List.take 1 [(a, t1, e1), (b, t2, e2)] = [(a, t1, e1)] from rfl]
    rw [openFold]
    dsimp only
    rw [if_neg (not_lt.mpr (le_min (by linarith) hcash))]
    rw [openFold]
    simp [dictInsert, dictKeys]

def c1entryF : String → ℕ → Option EntrySignal := fun t _ =>
  if t = "A" then some ⟨0, 1, "BUY", { score? := some 50 }⟩
  else some ⟨0, 1, "BUY", { score? := some 40 }⟩

def c1data : String → List Bar := fun _ => [flatBar 0 1 1]

/-- Witness for C1: two tickers signalling on the same day with scores
50 > 40 under max_positions = 1 — only ticker "A" is opened. -/
theorem c1_witness :
    entriesStepCode 1 10 c1entryF c1data ["A", "B"] 0 100 []
      = entriesSelSpec 1 10 c1entryF c1data ["A", "B"] 0 100 [] ∧
    dictKeys ((entriesStepCode 1 10 c1entryF c1data ["A", "B"] 0 100 []).2)
      = ["A"] := by
  refine ⟨(c1_entry_selection 1 10 c1entryF c1data ["A", "B"] 0 (by norm_num)).1
    100 [], ?_⟩
  exact (c1_entry_selection 1 10 c1entryF c1data ["A", "B"] 0 (by norm_num)).2
    50 40 "A" "B" ⟨0, 1, "BUY", { score? := some 50 }⟩
    ⟨0, 1, "BUY", { score? := some 40 }⟩ 100 (by decide) (by norm_num) (by norm_num)

-- ---------------------------------------------------------------------------
-- Claim C9 — scanner exits fire strictly after the entry day
-- ---------------------------------------------------------------------------

theorem c9_fold (ticker : String) (psize : ℚ)
    (entryF : ℕ → Option EntrySignal) (exitF : EntrySignal → ℕ → Option ExitSignal)
    (hE : ∀ d e, entryF d = some e → e.date = d)
    (hX : ∀ p d x, exitF p d = some x → x.date = d) :
    ∀ (bars : List Bar) (st : EngState),
      List.Pairwise (fun a b => a.date < b.date) bars →
      (∀ p, st.position = some p → ∀ b ∈ bars, p.date < b.date) →
      (∀ tr ∈ st.trades, tr.exitReason ≠ "END_OF_DATA" →
        tr.entryDate < tr.exitDate) →
      ∀ tr ∈ (bars.foldl (singleStep ticker psize entryF exitF) st).trades,
        tr.exitReason ≠ "END_OF_DATA" → tr.entryDate < tr.exitDate
  | [], st, _, _, htr => htr
  | b :: bs, st, hpw, hpos, htr => by
    rw [List.foldl_cons]
    have hpw' : List.Pairwise (fun a b => a.date < b.date) bs := hpw.of_cons
    have hhead : ∀ b' ∈ bs, b.date < b'.date := fun b' hb' =>
      (List.pairwise_cons.mp hpw).1 b' hb'
    refine c9_fold ticker psize entryF exitF hE hX bs
      (singleStep ticker psize entryF exitF st b) hpw' ?_ ?_
    · -- position invariant after the step
      intro p hp b' hb'
      unfold singleStep at hp
      cases hst : st.position with
      | none =>
        rw [hst] at hp
        dsimp only at hp
        cases hent : entryF b.date with
        | none => rw [hent] at hp; simp at hp
        | some e =>
          rw [hent] at hp
          dsimp only at hp
          have : e = p := by simpa using hp
          rw [← this, hE b.date e hent]
          exact hhead b' hb'
      | some q =>
        rw [hst] at hp
        dsimp only at hp
        cases hex : exitF q b.date with
        | none =>
          rw [hex] at hp
          dsimp only at hp
          have : q = p := by simpa using hp
          rw [← this]
          exact hpos q hst b' (List.mem_cons_of_mem b hb')
        | some x => rw [hex] at hp; simp at hp
    · -- trade invariant after the step
      intro tr htr' hne
      unfold singleStep at htr'
      cases hst : st.position with
      | none =>
        rw [hst] at htr'
        dsimp only at htr'
        cases hent : entryF b.date with
        | none =>
          rw [hent] at htr'
          exact htr tr htr' hne
        | some e =>
          rw [hent] at htr'
          exact htr tr htr' hne
      | some q =>
        rw [hst] at htr'
        dsimp only at htr'
        cases hex : exitF q b.date with
        | none =>
          rw [hex] at htr'
          exact htr tr htr' hne
        | some x =>
          rw [hex] at htr'
          dsimp only at htr'
          rcases List.mem_append.mp htr' with hold | hnew
          · exact htr tr hold hne
          · have htr0 : tr = mkTrade ticker q x.date x.price x.reason := by
              simpa using hnew
            rw [htr0]
            show q.date < x.date
            rw [hX q b.date x hex]
            exact hpos q hst b (List.mem_cons_self b bs)

/-- Claim C9: in the single-ticker engine the exit check never runs on the
day a position is opened — an entry on day D is first exposed to
`check_exit_signal` on the next simulated day — so every scanner-triggered
trade (any exit reason other than the engine's own "END_OF_DATA" force
close) has `exit_date` strictly after `entry_date`.  The scanner functions
are assumed to date their signals at the query date and never to use the
engine-reserved reason "END_OF_DATA" (true of both implemented scanners). -/
theorem c9_exit_after_entry (ticker : String) (icap psize : ℚ)
    (entryF : ℕ → Option EntrySignal) (exitF : EntrySignal → ℕ → Option ExitSignal)
    (simBars : List Bar) (hs : sortedBars simBars)
    (hE : ∀ d e, entryF d = some e → e.date = d)
    (hX : ∀ p d x, exitF p d = some x → x.date = d) :
    ∀ tr ∈ (simulateTicker ticker icap psize entryF exitF simBars).trades,
      tr.exitReason ≠ "END_OF_DATA" → tr.entryDate < tr.exitDate := by
  have hfold := c9_fold ticker psize entryF exitF hE hX simBars
    ⟨[], none, 0, icap, []⟩ hs (by intro p hp; simp at hp) (by intro tr htr; simp at htr)
  unfold simulateTicker
  dsimp only
  cases hp : (simBars.foldl (singleStep ticker psize entryF exitF)
      ⟨[], none, 0, icap, []⟩).position with
  | none =>
    cases hl : simBars.getLast? with
    | none => exact hfold
    | some lb => exact hfold
  | some p =>
    cases hl : simBars.getLast? with
    | none => exact hfold
    | some lb =>
      dsimp only
      intro tr htr hne
      rcases List.mem_append.mp htr with hold | hnew
      · exact hfold tr hold hne
      · have : tr = mkTrade ticker p lb.date lb.close "END_OF_DATA" := by
          simpa using hnew
        rw [this] at hne
        exact absurd rfl hne

def c9bars : List Bar := [flatBar 0 10 1, flatBar 1 8 1]

def c9entryF : ℕ → Option EntrySignal := fun d =>
  if d = 0 then some ⟨0, 10, "BUY", {}⟩ else none

def c9exitF : EntrySignal → ℕ → Option ExitSignal := fun _ d =>
  if d = 1 then some ⟨1, 8, "STOP_LOSS"⟩ else none

/-- Witness for C9: a concrete two-day run whose stop-loss trade exits
strictly after its entry. -/
theorem c9_witness :
    (⟨"T", 0, 10, "BUY", 1, 8, "STOP_LOSS", -20, 1⟩ : Trade).entryDate <
      (⟨"T", 0, 10, "BUY", 1, 8, "STOP_LOSS", -20, 1⟩ : Trade).exitDate := by
  refine c9_exit_after_entry "T" 100 1 c9entryF c9exitF c9bars (by decide)
    ?_ ?_ _ ?_ (by decide)
  · intro d e h
    unfold c9entryF at h
    split_ifs at h with hd
    · injection h with h'
      rw [← h']
      exact hd.symm
  · intro p d x h
    unfold c9exitF at h
    split_ifs at h with hd
    · injection h with h'
      rw [← h']
      exact hd.symm
  · with_unfolding_all decide

-- ---------------------------------------------------------------------------
-- Sorted-series slice and prefix-stability lemmas
-- ---------------------------------------------------------------------------

theorem slice_index (d : ℕ) :
    ∀ (s : List Bar), sortedBars s → d ∈ datesOf s →
      ∃ k, s.findIdx? (fun b => b.date = d) = some k ∧
        sliceLE s d = s.take (k + 1) ∧ k < s.length ∧ (barAt s k).date = d
  | [], _, hd => absurd hd (by simp [datesOf])
  | b :: rest, hs, hd => by
    by_cases hb : b.date = d
    · refine ⟨0, by simp [hb], ?_, by simp, by simp [barAt, hb]⟩
      have hrest : ∀ x ∈ rest, ¬ ((x.date ≤ d) = true) := by
        intro x hx
        have := (List.pairwise_cons.mp hs).1 x hx
        simp
        omega
      simp only [sliceLE, List.filter_cons, decide_eq_true_eq, List.take_succ_cons,
        List.take_zero]
      rw [if_pos (le_of_eq hb), List.filter_eq_nil_iff.mpr (by simpa using hrest)]
    · have hd' : d ∈ datesOf rest := by
        simp only [datesOf, List.map_cons, List.mem_cons] at hd
        rcases hd with h | h
        · exact absurd h.symm hb
        · exact h
      obtain ⟨k', h1, h2, h3, h4⟩ :=
        slice_index d rest (List.pairwise_cons.mp hs).2 hd'
      have hble : b.date ≤ d := by
        obtain ⟨x, hx, hxd⟩ := by simpa [datesOf] using hd'
        have := (List.pairwise_cons.mp hs).1 x hx
        omega
      refine ⟨k' + 1, ?_, ?_, by simpa using h3, by simpa [barAt] using h4⟩
      · rw [List.findIdx?_cons, if_neg (by simpa using hb), List.findIdx?_succ, h1]
        rfl
      · simp only [sliceLE, List.filter_cons, decide_eq_true_eq, List.take_succ_cons] at h2 ⊢
        rw [if_pos hble]
        rw [show rest.filter (fun b => decide (b.date ≤ d)) = rest.take (k' + 1) from h2]

theorem rollingMeanAt_take (w : ℕ) (xs : List ℚ) (n i : ℕ)
    (hi : i < n) (hn : n ≤ xs.length) :
    rollingMeanAt w (xs.take n) i = rollingMeanAt w xs i := by
  unfold rollingMeanAt
  have hlen : (xs.take n).length = n := by
    rw [List.length_take]
    omega
  have htk : (xs.take n).take (i + 1) = xs.take (i + 1) := by
    rw [List.take_take]
    congr 1
    omega
  rw [hlen, htk]
  have : (i < n ∧ 0 < w ∧ w ≤ i + 1) ↔ (i < xs.length ∧ 0 < w ∧ w ≤ i + 1) := by
    constructor <;> (intro h; exact ⟨by omega, h.2⟩)
  by_cases hc : i < n ∧ 0 < w ∧ w ≤ i + 1
  · rw [if_pos hc, if_pos (this.mp hc)]
  · rw [if_neg hc, if_neg (fun h => hc (this.mpr h))]

theorem dropNaCount_ge3 (w : ℕ) (xs : List ℚ) (hw : 0 < w)
    (hlen : w + 2 ≤ xs.length) : 3 ≤ dropNaCount w xs := by
  unfold dropNaCount
  have hsub : List.Sublist (List.range' (w - 1) 3) (List.range xs.length) := by
    rw [List.range_eq_range']
    have h1 : List.range' 0 (w - 1) ++ List.range' (0 + 1 * (w - 1)) (xs.length - (w - 1))
        = List.range' 0 xs.length := by
      rw [List.range'_append]
      congr 1
      omega
    rw [← h1]
    refine List.Sublist.trans ?_ (List.sublist_append_right _ _)
    rw [show (0 + 1 * (w - 1)) = w - 1 by omega]
    exact (List.range'_sublist_right).mpr (by omega)
  have hall : (List.range' (w - 1) 3).countP
      (fun i => (rollingMeanAt w xs i).isSome) = 3 := by
    rw [List.countP_eq_length.mpr]
    · rfl
    · intro i hi
      have hi' : w - 1 ≤ i ∧ i < w + 2 := by
        have := List.mem_range'.mp hi
        omega
      simp only [rollingMeanAt]
      rw [if_pos ⟨by omega, hw, by omega⟩]
      simp
  calc (3 : ℕ) = (List.range' (w - 1) 3).countP (fun i => (rollingMeanAt w xs i).isSome) :=
        hall.symm
    _ ≤ (List.range xs.length).countP (fun i => (rollingMeanAt w xs i).isSome) :=
        hsub.countP_le _

theorem rollingMean_slice (w : ℕ) (f : Bar → ℚ) (s : List Bar) (d k i : ℕ)
    (hslice : sliceLE s d = s.take (k + 1)) (hk : k < s.length) (hi : i < k + 1) :
    rollingMeanAt w ((sliceLE s d).map f) i = rollingMeanAt w (s.map f) i := by
  rw [hslice, List.map_take]
  exact rollingMeanAt_take w (s.map f) (k + 1) i hi (by rw [List.length_map]; omega)

theorem slice_getLast (s : List Bar) (d k : ℕ)
    (hslice : sliceLE s d = s.take (k + 1)) (hk : k < s.length) :
    (sliceLE s d).getLast? = some (barAt s k) := by
  have hbar : barAt s k = s[k] := by
    unfold barAt
    rw [List.getD_eq_getElem?_getD, List.getElem?_eq_getElem hk]
    rfl
  rw [hslice, List.getLast?_eq_getElem?, List.length_take]
  rw [show min (k + 1) s.length - 1 = k by omega]
  rw [List.getElem?_take_of_lt (by omega), List.getElem?_eq_getElem hk, hbar]

/-- Claim C2 (amended): for every open position and simulated trading day
with sufficient history, the concrete scanner's `check_exit_signal` — on
both its precomputed-indicator and its recompute-from-slice branch —
evaluates the six exit rules in fixed priority order (stop-loss 10% below
entry; profit target 15% above entry; three consecutive closes below the
20-day MA; close more than 5% below the 20-day MA; close below the 20-day
MA on positive average volume with volume strictly greater than 2× the
20-day average; time exit at 30 calendar days), and the first matching rule
determines the returned ExitSignal's reason; later rules are not evaluated
once one fires.  (The claim's rule 5 with "volume ≥ 2×" is refuted by
`c2_counterexample`.) -/
theorem c2_exit_priority (s : List Bar) (e : EntrySignal) (d : ℕ) (b : Bool)
    (hs : sortedBars s) (hd : d ∈ datesOf s)
    (hlen : 25 ≤ (sliceLE s d).length) :
    checkExitSignal defaultCfg b s e d
      = (exitDecisionSpec s e d).map
          (fun rsn => ⟨d, lastClose (sliceLE s d), rsn⟩) := by
  obtain ⟨k, hfind, hslice, hk, hdate⟩ := slice_index d s hs hd
  have hsllen : (sliceLE s d).length = k + 1 := by
    rw [hslice, List.length_take]
    omega
  have hk24 : 24 ≤ k := by omega
  cases b with
  | false =>
    unfold checkExitSignal
    dsimp only
    simp only [show defaultCfg.dMid = 20 from rfl]
    rw [if_neg (by omega : ¬ (sliceLE s d).length < 20 + 5)]
    rw [if_neg (by simp : ¬ (false = true))]
    unfold exitChain exitDecisionSpec avgVol20
    dsimp only
    simp only [decide_eq_true (show 3 ≤ (sliceLE s d).length by omega),
      decide_eq_true (dropNaCount_ge3 20 ((sliceLE s d).map (·.close)) (by norm_num)
        (by rw [List.length_map]; omega)),
      Bool.true_and]
    simp only [List.getLast?_map]
    simp only [oMap2]
    split_ifs <;> rfl
  | true =>
    unfold checkExitSignal
    dsimp only
    simp only [show defaultCfg.dMid = 20 from rfl]
    rw [if_neg (by omega : ¬ (sliceLE s d).length < 20 + 5)]
    rw [if_pos trivial]
    rw [hfind]
    dsimp only
    have hcloses : (sliceLE s d).map (·.close) = (s.map (·.close)).take (k + 1) := by
      rw [hslice, List.map_take]
    have hvols : (sliceLE s d).map (·.volume) = (s.map (·.volume)).take (k + 1) := by
      rw [hslice, List.map_take]
    have hma_full : rollingMeanAt 20 (s.map (·.close)) k
        = some ((((s.map (·.close)).take (k + 1)).drop (k + 1 - 20)).sum
            / ((20 : ℕ) : ℚ)) := by
      unfold rollingMeanAt
      rw [if_pos ⟨by rw [List.length_map]; omega, by norm_num, by omega⟩]
    have hav_full : rollingMeanAt 20 (s.map (·.volume)) k
        = some ((((s.map (·.volume)).take (k + 1)).drop (k + 1 - 20)).sum
            / ((20 : ℕ) : ℚ)) := by
      unfold rollingMeanAt
      rw [if_pos ⟨by rw [List.length_map]; omega, by norm_num, by omega⟩]
    rw [hma_full]
    dsimp only
    unfold exitDecisionSpec avgVol20 exitChain
    dsimp only
    rw [hav_full]
    simp only [decide_eq_true (show 2 ≤ k by omega), Bool.true_and]
    have hr3 : (List.range' ((sliceLE s d).length - 3) 3).map
          (rollingMeanAt 20 ((sliceLE s d).map (·.close)))
        = (List.range' (k - 2) 3).map (rollingMeanAt 20 (s.map (·.close))) := by
      rw [show (sliceLE s d).length - 3 = k - 2 by omega]
      refine List.map_congr_left ?_
      intro i hi
      have hmem := List.mem_range'_1.mp hi
      exact rollingMean_slice 20 _ s d k i hslice hk (by omega)
    rw [hr3]
    rw [rollingMean_slice 20 (fun b => b.close) s d k ((sliceLE s d).length - 1) hslice hk
      (by omega)]
    rw [show (sliceLE s d).length - 1 = k by omega]
    rw [hma_full]
    rw [slice_getLast s d k hslice hk]
    rw [if_pos (show 20 ≤ ((sliceLE s d).map (·.volume)).length by
      rw [List.length_map]; omega)]
    simp only [hcloses, hvols, List.length_take, List.length_map, hsllen]
    simp only [show min (k + 1) s.length = k + 1 by omega]
    simp only [oMap2, Option.map_some', Nat.cast_ofNat]
    split_ifs <;> rfl

/-- Counterexample to C2 as stated: on `c2s` the final day closes below the
20-day MA with volume exactly 2× the 20-day average (190 = 2 × 95) and no
other rule matches, so the claimed rule set (volume ≥ 2×) predicts a
VOLUME_BREAKDOWN exit — but the code requires strictly more than 2× and
returns no exit signal. -/
theorem c2_counterexample :
    checkExitSignal defaultCfg false c2s c2entry 24 = none ∧
    exitDecisionClaim c2s c2entry 24 = some "VOLUME_BREAKDOWN" := by
  constructor <;> with_unfolding_all decide

/-- Witness for C2 on the concrete 25-bar series. -/
theorem c2_witness :
    checkExitSignal defaultCfg false c2s c2entry 24
      = (exitDecisionSpec c2s c2entry 24).map
          (fun rsn => ⟨24, lastClose (sliceLE c2s 24), rsn⟩) :=
  c2_exit_priority c2s c2entry 24 false (by decide) (by decide) (by decide)


theorem weekLabel_ge (d : ℕ) : d ≤ weekLabel d := Nat.le_add_right d _

theorem wkGroup_head : ∀ (l : List Bar) (lab : ℕ) (c : ℚ),
    ∃ c' rest, wkGroup lab c l = (lab, c') :: rest
  | [], lab, c => ⟨c, [], rfl⟩
  | b :: bs, lab, c => by
    rw [wkGroup]
    by_cases hb : weekLabel b.date = lab
    · rw [if_pos hb]
      exact wkGroup_head bs lab b.close
    · rw [if_neg hb]
      exact ⟨c, _, rfl⟩

theorem wkGroup_takeWhile_append (d' : ℕ) :
    ∀ (p : List Bar) (lab : ℕ) (c : ℚ) (q : List Bar),
      (∀ b ∈ q, d' < weekLabel b.date) →
      (wkGroup lab c (p ++ q)).takeWhile (fun x => x.1 ≤ d')
        = (wkGroup lab c p).takeWhile (fun x => x.1 ≤ d')
  | [], lab, c, q, hq => by
    rw [List.nil_append]
    by_cases hl : lab ≤ d'
    · cases q with
      | nil => rfl
      | cons b bs =>
        have hwb : d' < weekLabel b.date := hq b (List.mem_cons_self b bs)
        have hne : ¬ weekLabel b.date = lab := by omega
        obtain ⟨c', rest, he⟩ := wkGroup_head bs (weekLabel b.date) b.close
        rw [show wkGroup lab c (b :: bs)
            = (lab, c) :: wkGroup (weekLabel b.date) b.close bs from by
          rw [wkGroup, if_neg hne]]
        rw [he, show wkGroup lab c [] = [(lab, c)] from rfl]
        rw [List.takeWhile_cons_of_pos (by simpa using hl),
          List.takeWhile_cons_of_neg (by simp; omega),
          List.takeWhile_cons_of_pos (by simpa using hl)]
        rfl
    · obtain ⟨c', rest, he⟩ := wkGroup_head q lab c
      rw [he, show wkGroup lab c [] = [(lab, c)] from rfl]
      rw [List.takeWhile_cons_of_neg (by simpa using hl),
        List.takeWhile_cons_of_neg (by simpa using hl)]
  | b :: bs, lab, c, q, hq => by
    rw [List.cons_append]
    by_cases hb : weekLabel b.date = lab
    · rw [show wkGroup lab c (b :: (bs ++ q))
          = wkGroup lab b.close (bs ++ q) from by rw [wkGroup, if_pos hb],
        show wkGroup lab c (b :: bs) = wkGroup lab b.close bs from by
          rw [wkGroup, if_pos hb]]
      exact wkGroup_takeWhile_append d' bs lab b.close q hq
    · rw [show wkGroup lab c (b :: (bs ++ q))
          = (lab, c) :: wkGroup (weekLabel b.date) b.close (bs ++ q) from by
        rw [wkGroup, if_neg hb],
        show wkGroup lab c (b :: bs)
          = (lab, c) :: wkGroup (weekLabel b.date) b.close bs from by
        rw [wkGroup, if_neg hb]]
      by_cases hl : lab ≤ d'
      · rw [List.takeWhile_cons_of_pos (by simpa using hl),
          List.takeWhile_cons_of_pos (by simpa using hl),
          wkGroup_takeWhile_append d' bs (weekLabel b.date) b.close q hq]
      · rw [List.takeWhile_cons_of_neg (by simpa using hl),
          List.takeWhile_cons_of_neg (by simpa using hl)]

theorem wBarsUpTo_take (s : List Bar) (k : ℕ) (hs : sortedBars s) (hk : k < s.length)
    (d' : ℕ) (hd' : d' ≤ (barAt s k).date) :
    wBarsUpTo (s.take (k + 1)) d' = wBarsUpTo s d' := by
  have hq : ∀ b ∈ s.drop (k + 1), d' < weekLabel b.date := by
    intro b hb
    have hpw2 : List.Pairwise (fun a b => a.date < b.date)
        (s.take (k + 1) ++ s.drop (k + 1)) := by
      rw [List.take_append_drop]
      exact hs
    have hmem : barAt s k ∈ s.take (k + 1) := by
      have h1 : (s.take (k + 1))[k]? = s[k]? := List.getElem?_take_of_lt (by omega)
      have h2 : s[k]? = some (barAt s k) := by
        rw [List.getElem?_eq_getElem hk]
        unfold barAt
        rw [List.getD_eq_getElem?_getD, List.getElem?_eq_getElem hk]
        rfl
      exact List.getElem?_mem (h1.trans h2)
    have hcross := (List.pairwise_append.mp hpw2).2.2 _ hmem b hb
    have := weekLabel_ge b.date
    omega
  cases hts : s.take (k + 1) with
  | nil =>
    exfalso
    have hlt : (s.take (k + 1)).length = k + 1 := by
      rw [List.length_take]
      omega
    rw [hts] at hlt
    simp at hlt
  | cons hd0 tl =>
    have hsplit : s = hd0 :: (tl ++ s.drop (k + 1)) := by
      conv_lhs => rw [← List.take_append_drop (k + 1) s]
      rw [hts, List.cons_append]
    have rhs_eq : wBarsUpTo s d'
        = (wkGroup (weekLabel hd0.date) hd0.close (tl ++ s.drop (k + 1))).takeWhile
            (fun x => x.1 ≤ d') := by
      unfold wBarsUpTo
      conv_lhs => rw [hsplit]
      rfl
    rw [show wBarsUpTo (hd0 :: tl) d'
        = (wkGroup (weekLabel hd0.date) hd0.close tl).takeWhile
            (fun x => x.1 ≤ d') from rfl, rhs_eq]
    exact (wkGroup_takeWhile_append d' tl (weekLabel hd0.date) hd0.close
      (s.drop (k + 1)) hq).symm

theorem barAt_take (s : List Bar) (n i : ℕ) (hi : i < n) :
    barAt (s.take n) i = barAt s i := by
  unfold barAt
  rw [List.getD_eq_getElem?_getD, List.getD_eq_getElem?_getD,
    List.getElem?_take_of_lt hi]

theorem expandingMaxAt_take (xs : List ℚ) (n i : ℕ) (hi : i < n) (hn : n ≤ xs.length) :
    expandingMaxAt (xs.take n) i = expandingMaxAt xs i := by
  unfold expandingMaxAt
  have hlen : (xs.take n).length = n := by
    rw [List.length_take]
    omega
  have htk : (xs.take n).take (i + 1) = xs.take (i + 1) := by
    rw [List.take_take]
    congr 1
    omega
  rw [hlen, htk, if_pos hi, if_pos (by omega)]

theorem foldl_congr_mem {α β : Type} (f g : β → α → β) :
    ∀ (l : List α) (init : β), (∀ (acc : β), ∀ x ∈ l, f acc x = g acc x) →
      l.foldl f init = l.foldl g init
  | [], _, _ => rfl
  | x :: xs, init, h => by
    rw [List.foldl_cons, List.foldl_cons, h init x (List.mem_cons_self x xs)]
    exact foldl_congr_mem f g xs _ (fun acc y hy => h acc y (List.mem_cons_of_mem x hy))

theorem scanCandle_take (cfg : Cfg) (s : List Bar) (k : ℕ) (hk : k < s.length)
    (acc : ℚ × Option (String × CandleDet)) (j : ℕ) (hj : j < k + 1) :
    scanCandle cfg (s.take (k + 1)) (indOf cfg (s.take (k + 1))) k acc j
      = scanCandle cfg s (indOf cfg s) k acc j := by
  have hdMf : (indOf cfg (s.take (k + 1))).dMf j = (indOf cfg s).dMf j := by
    show rollingMeanAt cfg.dFast ((s.take (k + 1)).map (·.close)) j
        = rollingMeanAt cfg.dFast (s.map (·.close)) j
    rw [List.map_take]
    exact rollingMeanAt_take _ _ _ _ hj (by rw [List.length_map]; omega)
  have hdMm : (indOf cfg (s.take (k + 1))).dMm j = (indOf cfg s).dMm j := by
    show rollingMeanAt cfg.dMid ((s.take (k + 1)).map (·.close)) j
        = rollingMeanAt cfg.dMid (s.map (·.close)) j
    rw [List.map_take]
    exact rollingMeanAt_take _ _ _ _ hj (by rw [List.length_map]; omega)
  unfold scanCandle
  rw [barAt_take s (k + 1) j hj, hdMf, hdMm]

theorem checkEntryAt_take (cfg : Cfg) (s : List Bar) (k : ℕ)
    (hs : sortedBars s) (hk : k < s.length) :
    checkEntryAt cfg (s.take (k + 1)) k (indOf cfg (s.take (k + 1)))
      = checkEntryAt cfg s k (indOf cfg s) := by
  have hbar : barAt (s.take (k + 1)) k = barAt s k := barAt_take s (k + 1) k (by omega)
  have hwMm : (indOf cfg (s.take (k + 1))).wMm k = (indOf cfg s).wMm k := by
    show wMAAt cfg.wMid (s.take (k + 1)) (barAt (s.take (k + 1)) k).date
        = wMAAt cfg.wMid s (barAt s k).date
    rw [hbar]
    unfold wMAAt
    rw [wBarsUpTo_take s k hs hk _ (le_refl _)]
  have hwCl : (indOf cfg (s.take (k + 1))).wClose k = (indOf cfg s).wClose k := by
    show wCloseAt (s.take (k + 1)) (barAt (s.take (k + 1)) k).date
        = wCloseAt s (barAt s k).date
    rw [hbar]
    unfold wCloseAt
    rw [wBarsUpTo_take s k hs hk _ (le_refl _)]
  have hwMf : (indOf cfg (s.take (k + 1))).wMf k = (indOf cfg s).wMf k := by
    show wMAAt cfg.wFast (s.take (k + 1)) (barAt (s.take (k + 1)) k).date
        = wMAAt cfg.wFast s (barAt s k).date
    rw [hbar]
    unfold wMAAt
    rw [wBarsUpTo_take s k hs hk _ (le_refl _)]
  have hdMxf : (indOf cfg (s.take (k + 1))).dMxf k = (indOf cfg s).dMxf k := by
    show rollingMeanAt cfg.dXfast ((s.take (k + 1)).map (·.close)) k
        = rollingMeanAt cfg.dXfast (s.map (·.close)) k
    rw [List.map_take]
    exact rollingMeanAt_take _ _ _ _ (by omega) (by rw [List.length_map]; omega)
  have hdMf : (indOf cfg (s.take (k + 1))).dMf k = (indOf cfg s).dMf k := by
    show rollingMeanAt cfg.dFast ((s.take (k + 1)).map (·.close)) k
        = rollingMeanAt cfg.dFast (s.map (·.close)) k
    rw [List.map_take]
    exact rollingMeanAt_take _ _ _ _ (by omega) (by rw [List.length_map]; omega)
  have hdMm : (indOf cfg (s.take (k + 1))).dMm k = (indOf cfg s).dMm k := by
    show rollingMeanAt cfg.dMid ((s.take (k + 1)).map (·.close)) k
        = rollingMeanAt cfg.dMid (s.map (·.close)) k
    rw [List.map_take]
    exact rollingMeanAt_take _ _ _ _ (by omega) (by rw [List.length_map]; omega)
  have hdMs : (indOf cfg (s.take (k + 1))).dMs k = (indOf cfg s).dMs k := by
    show rollingMeanAt cfg.dSlow ((s.take (k + 1)).map (·.close)) k
        = rollingMeanAt cfg.dSlow (s.map (·.close)) k
    rw [List.map_take]
    exact rollingMeanAt_take _ _ _ _ (by omega) (by rw [List.length_map]; omega)
  have hath : (indOf cfg (s.take (k + 1))).ath k = (indOf cfg s).ath k := by
    show expandingMaxAt ((s.take (k + 1)).map (·.high)) k
        = expandingMaxAt (s.map (·.high)) k
    rw [List.map_take]
    exact expandingMaxAt_take _ _ _ (by omega) (by rw [List.length_map]; omega)
  have hloop : detectLoop cfg (s.take (k + 1)) (indOf cfg (s.take (k + 1))) k
      = detectLoop cfg s (indOf cfg s) k := by
    unfold detectLoop
    dsimp only
    refine foldl_congr_mem _ _ _ _ ?_
    intro acc j hj
    have hj' : j < k + 1 := by
      have := List.mem_range'_1.mp hj
      omega
    exact scanCandle_take cfg s k hk acc j hj'
  have hrh : recentHighAt (s.take (k + 1)) k = recentHighAt s k := by
    unfold recentHighAt
    rw [List.map_take, List.take_take, Nat.min_self]
  simp only [checkEntryAt, hbar, hwMm, hwCl, hwMf, hdMxf, hdMf, hdMm, hdMs, hath,
    hloop, hrh]

theorem mem_dates_slice (s : List Bar) (d : ℕ) :
    d ∈ datesOf s ↔ d ∈ datesOf (sliceLE s d) := by
  simp only [datesOf, sliceLE, List.mem_map, List.mem_filter, decide_eq_true_eq]
  constructor
  · rintro ⟨b, hb, hbd⟩
    exact ⟨b, ⟨hb, by omega⟩, hbd⟩
  · rintro ⟨b, ⟨hb, _⟩, hbd⟩
    exact ⟨b, hb, hbd⟩

theorem findIdx_none_of_not_mem (s : List Bar) (d : ℕ) (h : d ∉ datesOf s) :
    s.findIdx? (fun b => b.date = d) = none := by
  rw [List.findIdx?_eq_none_iff]
  intro b hb
  simp only [decide_eq_false_iff_not]
  intro hbd
  exact h (by simp only [datesOf, List.mem_map]; exact ⟨b, hb, hbd⟩)

theorem simEntryAt_congr (cfg : Cfg) (s₁ s₂ : List Bar) (d : ℕ)
    (h₁ : sortedBars s₁) (h₂ : sortedBars s₂)
    (hpre : sliceLE s₁ d = sliceLE s₂ d)
    (hwk : ((weeklyCloses s₁).length < cfg.wMid + 2)
      ↔ ((weeklyCloses s₂).length < cfg.wMid + 2)) :
    simEntryAt cfg s₁ d = simEntryAt cfg s₂ d := by
  by_cases hmem : d ∈ datesOf s₁
  · have hmem₂ : d ∈ datesOf s₂ := by
      rw [mem_dates_slice, ← hpre, ← mem_dates_slice]
      exact hmem
    obtain ⟨k₁, hf₁, hsl₁, hk₁, hd₁⟩ := slice_index d s₁ h₁ hmem
    obtain ⟨k₂, hf₂, hsl₂, hk₂, hd₂⟩ := slice_index d s₂ h₂ hmem₂
    have hkk : k₁ = k₂ := by
      have l1 : (sliceLE s₁ d).length = k₁ + 1 := by
        rw [hsl₁, List.length_take]
        omega
      have l2 : (sliceLE s₂ d).length = k₂ + 1 := by
        rw [hsl₂, List.length_take]
        omega
      rw [hpre] at l1
      omega
    subst hkk
    have htake : s₁.take (k₁ + 1) = s₂.take (k₁ + 1) :=
      hsl₁.symm.trans (hpre.trans hsl₂)
    unfold simEntryAt
    by_cases hsmall : k₁ < cfg.dSlow + 20
    · cases hci₁ : computeIndicators cfg s₁ <;> cases hci₂ : computeIndicators cfg s₂ <;>
        simp [hf₁, hf₂, hsmall]
    · have hlen₁ : ¬ (s₁.length < cfg.dSlow + 20) := by omega
      have hlen₂ : ¬ (s₂.length < cfg.dSlow + 20) := by omega
      unfold computeIndicators
      rw [if_neg hlen₁, if_neg hlen₂]
      by_cases hwk₁ : (weeklyCloses s₁).length < cfg.wMid + 2
      · rw [if_pos hwk₁, if_pos (hwk.mp hwk₁)]
      · rw [if_neg hwk₁, if_neg (fun h => hwk₁ (hwk.mpr h))]
        dsimp only
        rw [hf₁, hf₂]
        dsimp only
        rw [if_neg hsmall, if_neg hsmall]
        have hce : checkEntryAt cfg s₁ k₁ (indOf cfg s₁)
            = checkEntryAt cfg s₂ k₁ (indOf cfg s₂) := by
          rw [← checkEntryAt_take cfg s₁ k₁ h₁ hk₁,
            ← checkEntryAt_take cfg s₂ k₁ h₂ hk₂, htake]
        have hbar : barAt s₁ k₁ = barAt s₂ k₁ := by
          rw [← barAt_take s₁ (k₁ + 1) k₁ (by omega),
            ← barAt_take s₂ (k₁ + 1) k₁ (by omega), htake]
        rw [hce, hbar]
  · have hmem₂ : d ∉ datesOf s₂ := by
      rw [mem_dates_slice, ← hpre, ← mem_dates_slice]
      exact hmem
    have hf₁ := findIdx_none_of_not_mem s₁ d hmem
    have hf₂ := findIdx_none_of_not_mem s₂ d hmem₂
    unfold simEntryAt
    cases hci₁ : computeIndicators cfg s₁ <;> cases hci₂ : computeIndicators cfg s₂ <;>
      simp [hf₁, hf₂]

/-- **Claim C3 (corrected: no look-ahead).** The entry verdict at `as_of_date = d`
depends only on bars dated ≤ `d`: for any two series agreeing on all bars up to
and including `d`, (a) the default truncate-then-scan path
(`BaseScanner.check_entry_signal`) returns the same verdict unconditionally, and
(b) the precomputed per-date entry cache built by `prepare_simulation` over the
full series returns the same verdict provided the full-series weekly-bar-count
guard of `_compute_indicators` (`len(weekly) < w_mid + 2`) passes or fails
identically for the two series — that guard is evaluated on the full series, so
without this proviso the cached verdict can depend on bars after `d`
(see the counterexample). -/
theorem c3_no_lookahead (cfg : Cfg) (scanF : List Bar → Option ScanResult)
    (s₁ s₂ : List Bar) (d : ℕ)
    (hpre : sliceLE s₁ d = sliceLE s₂ d) :
    baseCheckEntrySignal scanF s₁ d = baseCheckEntrySignal scanF s₂ d
    ∧ (sortedBars s₁ → sortedBars s₂ →
        (((weeklyCloses s₁).length < cfg.wMid + 2)
          ↔ ((weeklyCloses s₂).length < cfg.wMid + 2)) →
        simEntryAt cfg s₁ d = simEntryAt cfg s₂ d) := by
  constructor
  · unfold baseCheckEntrySignal
    rw [hpre]
  · intro h₁ h₂ hwk
    exact simEntryAt_congr cfg s₁ s₂ d h₁ h₂ hpre hwk

set_option maxHeartbeats 16000000 in
set_option maxRecDepth 100000 in
/-- Counterexample to the claim as stated: `c3s1` (71 bars, 21 weekly bars) and
`c3s2 = c3s1 ++ [one bar dated 147]` (22 weekly bars) agree on every bar dated
≤ 140, yet the `prepare_simulation` cache queried at `as_of_date = 140` returns
no signal for `c3s1` (the full-series weekly guard `len(weekly) < w_mid + 2`
fails the series) and a signal for `c3s2` — the cached verdict at day 140
depends on the bar dated 147. -/
theorem c3_counterexample :
    sortedBars c3s1 ∧ sortedBars c3s2
    ∧ sliceLE c3s1 140 = sliceLE c3s2 140
    ∧ simEntryAt defaultCfg c3s1 140 = none
    ∧ (simEntryAt defaultCfg c3s2 140).isSome = true := by
  refine ⟨?_, ?_, ?_, ?_, ?_⟩ <;> with_unfolding_all decide

/-- Witness for `c3_no_lookahead` at a concrete instance: `c2s` versus
`c2s` extended by one later bar, queried at day 24. -/
theorem c3_witness :
    (sliceLE c2s 24 = sliceLE (c2s ++ [flatBar 25 100 90]) 24)
    ∧ (baseCheckEntrySignal (fun _ => none) c2s 24
        = baseCheckEntrySignal (fun _ => none) (c2s ++ [flatBar 25 100 90]) 24
      ∧ (sortedBars c2s → sortedBars (c2s ++ [flatBar 25 100 90]) →
          (((weeklyCloses c2s).length < defaultCfg.wMid + 2)
            ↔ ((weeklyCloses (c2s ++ [flatBar 25 100 90])).length
                < defaultCfg.wMid + 2)) →
          simEntryAt defaultCfg c2s 24
            = simEntryAt defaultCfg (c2s ++ [flatBar 25 100 90]) 24)) :=
  ⟨by with_unfolding_all decide,
    c3_no_lookahead defaultCfg (fun _ => none) c2s (c2s ++ [flatBar 25 100 90]) 24
      (by with_unfolding_all decide)⟩
